import Mathlib

/-!
Verification of the markdown-to-Confluence converter core
(`src/converter.ts`, `src/index.ts`) via a shallow embedding.

Documents are `List Char`; the remote rendering service is a parameter
`render : Nat → List Char → Option (List Nat)` giving the outcome of the
i-th per-block render call (`some bytes` on success, `none` when the call
fails); byte buffers are `List Nat`.
-/

set_option maxRecDepth 100000
set_option maxHeartbeats 1000000

namespace MdConf

/-- The backtick character, ASCII 96. -/
def btick : Char := Char.ofNat 96

/-- The double-quote character, ASCII 34. -/
def dquote : Char := Char.ofNat 34

/-- The single-quote character, ASCII 39. -/
def squote : Char := Char.ofNat 39

/-- JavaScript whitespace (the `\s` class and `String.prototype.trim` set,
restricted to the code points that can actually occur here). -/
def isWs (c : Char) : Bool :=
  c = ' ' || c = '\t' || c = '\n' || c = '\r' ||
  c.toNat = 11 || c.toNat = 12 || c.toNat = 160 || c.toNat = 0xFEFF ||
  c.toNat = 0x2028 || c.toNat = 0x2029

/-- JavaScript regex line terminators: LF, CR, LS (U+2028) and PS
(U+2029). `.` never matches them, and in multiline mode `^` anchors
right after each one and `$` right before each one. -/
def isLineTerm (c : Char) : Bool :=
  c = '\n' || c = '\r' || c.toNat = 0x2028 || c.toNat = 0x2029

/-- JavaScript `String.prototype.trim`: drop whitespace from both ends. -/
def jsTrim (l : List Char) : List Char :=
  ((l.dropWhile isWs).reverse.dropWhile isWs).reverse

/-- A character list containing no backtick. -/
def tickFree (l : List Char) : Bool :=
  l.all (fun c => c ≠ btick)

/-- Index of the first occurrence of `pat` as a contiguous sublist of `s`,
scanning left to right (the JS regex / `indexOf` search order). -/
def findSub (pat : List Char) : List Char → Option Nat
  | [] => if pat.isPrefixOf ([] : List Char) then some 0 else none
  | s@(_ :: t) =>
    if pat.isPrefixOf s then some 0
    else (findSub pat t).map (· + 1)

/-- JavaScript `String.prototype.replace` with a plain-string pattern:
replace the first occurrence of `pat` (none of the replacement strings used
by the converter contain `$`, so JS substitution patterns do not arise). -/
def replaceFirst (pat rep : List Char) : List Char → List Char
  | [] => if pat.isPrefixOf ([] : List Char) then rep else []
  | s@(c :: t) =>
    if pat.isPrefixOf s then rep ++ s.drop pat.length
    else c :: replaceFirst pat rep t

theorem findSub_lt_length {pat : List Char} (hp : pat ≠ []) :
    ∀ {s : List Char} {i : Nat}, findSub pat s = some i → i < s.length := by
  intro s
  induction s with
  | nil =>
    intro i h
    simp only [findSub] at h
    rw [if_neg (by simpa [List.isPrefixOf_iff_prefix] using hp)] at h
    exact absurd h (by simp)
  | cons c t ih =>
    intro i h
    simp only [findSub] at h
    split at h
    · cases h; simp
    · rcases Option.map_eq_some'.mp h with ⟨j, hj, rfl⟩
      simpa using Nat.succ_lt_succ (ih hj)

/-! ### UTF-8 and MD5 (Node's `createHash("md5").update(content).digest("hex")`) -/

/-- UTF-8 encoding of one character. -/
def utf8Char (c : Char) : List Nat :=
  let n := c.toNat
  if n < 128 then [n]
  else if n < 2048 then [192 + n / 64, 128 + n % 64]
  else if n < 65536 then [224 + n / 4096, 128 + n / 64 % 64, 128 + n % 64]
  else [240 + n / 262144, 128 + n / 4096 % 64, 128 + n / 64 % 64, 128 + n % 64]

/-- UTF-8 encoding of a character list. -/
def utf8Bytes (l : List Char) : List Nat :=
  (l.map utf8Char).flatten

/-- Reduction modulo 2^32. -/
def w32 (n : Nat) : Nat := n % 4294967296

/-- Rotate a 32-bit value (given as a `Nat` below 2^32) left by `s` bits. -/
def rotl32 (x s : Nat) : Nat := (x * 2 ^ s) % 4294967296 + x / 2 ^ (32 - s)

/-- MD5 round constants `⌊2^32·|sin(i+1)|⌋`. -/
def md5K : List Nat :=
  [0xd76aa478, 0xe8c7b756, 0x242070db, 0xc1bdceee,
   0xf57c0faf, 0x4787c62a, 0xa8304613, 0xfd469501,
   0x698098d8, 0x8b44f7af, 0xffff5bb1, 0x895cd7be,
   0x6b901122, 0xfd987193, 0xa679438e, 0x49b40821,
   0xf61e2562, 0xc040b340, 0x265e5a51, 0xe9b6c7aa,
   0xd62f105d, 0x02441453, 0xd8a1e681, 0xe7d3fbc8,
   0x21e1cde6, 0xc33707d6, 0xf4d50d87, 0x455a14ed,
   0xa9e3e905, 0xfcefa3f8, 0x676f02d9, 0x8d2a4c8a,
   0xfffa3942, 0x8771f681, 0x6d9d6122, 0xfde5380c,
   0xa4beea44, 0x4bdecfa9, 0xf6bb4b60, 0xbebfbc70,
   0x289b7ec6, 0xeaa127fa, 0xd4ef3085, 0x04881d05,
   0xd9d4d039, 0xe6db99e5, 0x1fa27cf8, 0xc4ac5665,
   0xf4292244, 0x432aff97, 0xab9423a7, 0xfc93a039,
   0x655b59c3, 0x8f0ccc92, 0xffeff47d, 0x85845dd1,
   0x6fa87e4f, 0xfe2ce6e0, 0xa3014314, 0x4e0811a1,
   0xf7537e82, 0xbd3af235, 0x2ad7d2bb, 0xeb86d391]

/-- MD5 per-round left-rotation amounts. -/
def md5S : List Nat :=
  [7, 12, 17, 22, 7, 12, 17, 22, 7, 12, 17, 22, 7, 12, 17, 22,
   5, 9, 14, 20, 5, 9, 14, 20, 5, 9, 14, 20, 5, 9, 14, 20,
   4, 11, 16, 23, 4, 11, 16, 23, 4, 11, 16, 23, 4, 11, 16, 23,
   6, 10, 15, 21, 6, 10, 15, 21, 6, 10, 15, 21, 6, 10, 15, 21]

/-- MD5 auxiliary function F (round 1); arguments are below 2^32 so
`4294967295 - b` is bitwise complement. -/
def md5F (b c d : Nat) : Nat :=
  Nat.lor (Nat.land b c) (Nat.land (4294967295 - b) d)

/-- MD5 auxiliary function G (round 2). -/
def md5G (b c d : Nat) : Nat :=
  Nat.lor (Nat.land d b) (Nat.land (4294967295 - d) c)

/-- MD5 auxiliary function H (round 3). -/
def md5H (b c d : Nat) : Nat :=
  Nat.xor b (Nat.xor c d)

/-- MD5 auxiliary function I (round 4). -/
def md5I (b c d : Nat) : Nat :=
  Nat.xor c (Nat.lor b (4294967295 - d))

/-- Little-endian byte decomposition, `n` bytes. -/
def leBytes (n x : Nat) : List Nat :=
  (List.range n).map fun i => x / 256 ^ i % 256

/-- One of the 64 MD5 operations. `M` is the 16-word message schedule. -/
def md5Op (M : List Nat) (st : Nat × Nat × Nat × Nat) (i : Nat) :
    Nat × Nat × Nat × Nat :=
  let a := st.1; let b := st.2.1; let c := st.2.2.1; let d := st.2.2.2
  let f :=
    if i < 16 then md5F b c d
    else if i < 32 then md5G b c d
    else if i < 48 then md5H b c d
    else md5I b c d
  let g :=
    if i < 16 then i
    else if i < 32 then (5 * i + 1) % 16
    else if i < 48 then (3 * i + 5) % 16
    else (7 * i) % 16
  let t := w32 (a + f + md5K.getD i 0 + M.getD g 0)
  (d, w32 (b + rotl32 t (md5S.getD i 0)), b, c)

/-- Process one 64-byte chunk. -/
def md5Chunk (st : Nat × Nat × Nat × Nat) (chunk : List Nat) :
    Nat × Nat × Nat × Nat :=
  let M := (List.range 16).map fun j =>
    chunk.getD (4 * j) 0 + 256 * chunk.getD (4 * j + 1) 0 +
    65536 * chunk.getD (4 * j + 2) 0 + 16777216 * chunk.getD (4 * j + 3) 0
  let r := (List.range 64).foldl (md5Op M) st
  (w32 (st.1 + r.1), w32 (st.2.1 + r.2.1),
   w32 (st.2.2.1 + r.2.2.1), w32 (st.2.2.2 + r.2.2.2))

/-- MD5 padding: `0x80`, zeros to 56 mod 64, then the 64-bit little-endian
bit length. -/
def md5Pad (msg : List Nat) : List Nat :=
  msg ++ 128 :: List.replicate ((119 - msg.length % 64) % 64) 0 ++
    leBytes 8 (8 * msg.length)

/-- Split into 64-byte chunks; `k` is the chunk count (the padded message
always has length `64 * k`). -/
def md5Chunks : Nat → List Nat → List (List Nat)
  | 0, _ => []
  | k + 1, l => l.take 64 :: md5Chunks k (l.drop 64)

/-- MD5 digest, 16 bytes. -/
def md5Bytes (msg : List Nat) : List Nat :=
  let padded := md5Pad msg
  let st := (md5Chunks (padded.length / 64) padded).foldl md5Chunk
    (0x67452301, 0xefcdab89, 0x98badcfe, 0x10325476)
  leBytes 4 st.1 ++ leBytes 4 st.2.1 ++ leBytes 4 st.2.2.1 ++ leBytes 4 st.2.2.2

/-- Lowercase hexadecimal digit. -/
def hexChar (n : Nat) : Char :=
  if n < 10 then Char.ofNat (48 + n) else Char.ofNat (87 + n)

/-- Two lowercase hex characters of one byte. -/
def byteHex (b : Nat) : List Char :=
  [hexChar (b / 16), hexChar (b % 16)]

/-- Node's `digest("hex")`: the full 32-character lowercase hex digest. -/
def md5hex (msg : List Nat) : List Char :=
  ((md5Bytes msg).map byteHex).flatten

/-- A lowercase hexadecimal digit character. -/
def isHexDigitCh (c : Char) : Bool :=
  ('0' ≤ c && c ≤ '9') || ('a' ≤ c && c ≤ 'f')

/-! ### The converter (`src/converter.ts`) -/

/-- A page attachment: filename plus raw image bytes
(`interface Attachment` in `converter.ts`). -/
structure Attachment where
  filename : List Char
  data : List Nat
deriving DecidableEq, Repr

/-- The opening part of the mermaid fence pattern:
the regex is `/```mermaid\n([\s\S]*?)```/g`. -/
def openTag : List Char := ("```mermaid\n").toList

/-- The closing fence of the mermaid pattern. -/
def closeTag : List Char := ("```").toList

/-- `generateFilename` (converter.ts:41-44):
`mermaid-` + first 12 hex chars of the MD5 of the content + `.png`. -/
def generateFilename (content : List Char) : List Char :=
  ("mermaid-").toList ++ (md5hex (utf8Bytes content)).take 12 ++ (".png").toList

/-- The image placeholder `![mermaid-${filename}](${filename})`
inserted for a rendered block (converter.ts:70). -/
def placeholderFor (filename : List Char) : List Char :=
  ("![mermaid-").toList ++ filename ++ ("](").toList ++ filename ++ (")").toList

/-- The full text matched by the mermaid regex for inner source `c`
(`match[0]`). -/
def fenceStr (c : List Char) : List Char := openTag ++ c ++ closeTag

/-- The scan loop `while ((match = mermaidRegex.exec(markdown)) !== null)`:
all non-overlapping matches of the lazy pattern, left to right, as
`(match[0], match[1])` pairs. The fuel argument only bounds the number of
iterations; each iteration consumes at least 14 characters, so the
wrapper's `s.length` is always sufficient. -/
def scanAux : Nat → List Char → List (List Char × List Char)
  | 0, _ => []
  | fuel + 1, s =>
    match findSub openTag s with
    | none => []
    | some i =>
      let rest := s.drop (i + 11)
      match findSub closeTag rest with
      | none => []
      | some j =>
        (fenceStr (rest.take j), rest.take j) :: scanAux fuel (rest.drop (j + 3))

/-- All mermaid-regex matches of a document. -/
def scan (s : List Char) : List (List Char × List Char) :=
  scanAux s.length s


/-- `Map.set` of JavaScript: update the value in place if the key exists,
otherwise append the pair (insertion order preserved). -/
def mapSet (k v : List Char) : List (List Char × List Char) → List (List Char × List Char)
  | [] => [(k, v)]
  | (k', v') :: r => if k' = k then (k', v) :: r else (k', v') :: mapSet k v r

/-- The per-block loop of `convertMarkdownToConfluence` (converter.ts:60-76):
trim the inner source, compute the filename, call the renderer; on success
push the attachment and record the placeholder in the map; on failure skip.
`i` is the index of the render call. -/
def processLoop (render : Nat → List Char → Option (List Nat)) :
    List (List Char × List Char) → Nat → List Attachment →
    List (List Char × List Char) → List Attachment × List (List Char × List Char)
  | [], _, atts, m => (atts, m)
  | (full, inner) :: rest, i, atts, m =>
    let code := jsTrim inner
    let fn := generateFilename code
    match render i code with
    | some png =>
      processLoop render rest (i + 1) (atts ++ [⟨fn, png⟩])
        (mapSet full (placeholderFor fn) m)
    | none => processLoop render rest (i + 1) atts m

/-- Lines 52-81 of `convertMarkdownToConfluence`: extract the mermaid
blocks, render them, and rewrite the document (each map entry replaces the
first occurrence of its key via `String.replace`). The rewritten document
is then handed to the external `marked` translator. -/
def processMermaidBlocks (render : Nat → List Char → Option (List Nat))
    (markdown : List Char) : List Char × List Attachment :=
  let blocks := scan markdown
  let (atts, m) := processLoop render blocks 0 [] []
  let processed := m.foldl (fun acc kv => replaceFirst kv.1 kv.2 acc) markdown
  (processed, atts)

/-- `renderer.code` (converter.ts:93-100): the Confluence code macro with
the language parameter (falling back to `text`), `collapse` fixed to
`false`, and the body embedded verbatim in CDATA. -/
def rendererCode (code : List Char) (language : Option (List Char)) : List Char :=
  let lang := match language with
    | none => ("text").toList
    | some l => if l = [] then ("text").toList else l
  ("<ac:structured-macro ac:name=\"code\">\n      <ac:parameter ac:name=\"language\">").toList ++
  lang ++
  ("</ac:parameter>\n      <ac:parameter ac:name=\"collapse\">false</ac:parameter>\n      <ac:plain-text-body><![CDATA[").toList ++
  code ++
  ("]]></ac:plain-text-body>\n    </ac:structured-macro>").toList

/-- `renderer.image` (converter.ts:103-111): attachment image when the
target ends in `.png` and starts with `mermaid-`, external image otherwise. -/
def rendererImage (href : List Char) : List Char :=
  if (".png").toList.isSuffixOf href && ("mermaid-").toList.isPrefixOf href then
    ("<ac:image><ri:attachment ri:filename=\"").toList ++ href ++ ("\"/></ac:image>").toList
  else
    ("<ac:image><ri:url ri:value=\"").toList ++ href ++ ("\"/></ac:image>").toList

/-- The post-serialization cleanup `html.replace(/>\s+</g, "><")`
(converter.ts:124): collapse every `>`-whitespace-`<` run, scanning left to
right (the greedy `\s+` takes the maximal run; no backtracking is possible
because `<` is not whitespace). -/
def cleanWsAux : Nat → List Char → List Char
  | 0, _ => []
  | _ + 1, [] => []
  | fuel + 1, c :: rest =>
    if c = '>' ∧ (rest.takeWhile isWs) ≠ [] ∧
        (rest.drop (rest.takeWhile isWs).length).head? = some '<' then
      '>' :: '<' :: cleanWsAux fuel (rest.drop ((rest.takeWhile isWs).length + 1))
    else c :: cleanWsAux fuel rest

/-- The whitespace cleanup, `fuel` instantiated to the string length
(every step consumes at least one character). -/
def cleanWs (s : List Char) : List Char :=
  cleanWsAux s.length s

/-! ### `removeFrontMatter` (converter.ts:132-134) -/

/-- Length of the match of `/^---\n[\s\S]*?\n---\n/` when it matches:
the string must start with `---\n` and the lazy body ends at the first
occurrence of `\n---\n` after it (match length `4 + body + 5`). -/
def fmStripLen (s : List Char) : Option Nat :=
  if ("---\n").toList.isPrefixOf s then
    (findSub ("\n---\n").toList (s.drop 4)).map (· + 9)
  else none

/-- `removeFrontMatter`: replace the front-matter match (if any) with the
empty string. -/
def removeFrontMatter (s : List Char) : List Char :=
  match fmStripLen s with
  | some n => s.drop n
  | none => s

/-! ### `extractTitle` (converter.ts:139-153)

The front-matter regex is `/^---\n[\s\S]*?title:\s*["']?([^"'\n]+)["']?/`:
the document must start with `---\n`, the lazy `[\s\S]*?` tries each later
occurrence of `title:` in increasing position order, and at each occurrence
the greedy `\s*` backtracks from the longest whitespace run down until the
optional quote plus the non-empty `[^"'\n]+` capture succeed. -/

/-- `title:`. -/
def titleKey : List Char := ("title:").toList

/-- Characters allowed in the capture group `[^"'\n]+`. -/
def notQCN (c : Char) : Bool := c ≠ dquote && c ≠ squote && c ≠ '\n'

/-- Attempt `["']?([^"'\n]+)` at `u` (after `\s*` consumed some run):
prefer consuming a quote; the capture must be non-empty. When the head is
a quote and nothing follows it, the quote-free alternative also fails
because the head is excluded from the class. -/
def titleTryAt (u : List Char) : Option (List Char) :=
  match u.head? with
  | some c =>
    if c = dquote || c = squote then
      let b := (u.drop 1).takeWhile notQCN
      if b ≠ [] then some b else none
    else
      let b := u.takeWhile notQCN
      if b ≠ [] then some b else none
  | none => none

/-- Backtrack the greedy `\s*`: try consuming `k` whitespace characters,
then `k - 1`, ..., down to `0`. -/
def titleWsTry (u : List Char) : Nat → Option (List Char)
  | 0 => titleTryAt u
  | k + 1 =>
    match titleTryAt (u.drop (k + 1)) with
    | some b => some b
    | none => titleWsTry u k

/-- Match `\s*["']?([^"'\n]+)` at `u` with the greedy/backtracking order
of the regex engine. -/
def titleTailMatch (u : List Char) : Option (List Char) :=
  titleWsTry u (u.takeWhile isWs).length

/-- The lazy `[\s\S]*?title:...`: try each occurrence of `title:` from
left to right, moving on when the tail fails to match. -/
def titleScan : List Char → Option (List Char)
  | [] => none
  | s@(_ :: t) =>
    if titleKey.isPrefixOf s then
      match titleTailMatch (s.drop 6) with
      | some b => some b
      | none => titleScan t
    else titleScan t

/-- Attempt `#\s+(.+)$` at a line start (regex `/^#\s+(.+)$/m`): after
`#`, the greedy `\s+` backtracks from the maximal whitespace run down to
one character, until the next character exists and is one `.` can match
(not a line terminator); the capture is the maximal line-terminator-free
run from there, and `$` (end of string or before a line terminator in
multiline mode) then always holds. -/
def h1WsTry (v : List Char) : Nat → Option (List Char)
  | 0 => none
  | k + 1 =>
    match (v.drop (k + 1)).head? with
    | some c =>
      if isLineTerm c then h1WsTry v k
      else some ((v.drop (k + 1)).takeWhile (fun c => !isLineTerm c))
    | none => h1WsTry v k

/-- Attempt the H1 match at one line start. -/
def h1Try : List Char → Option (List Char)
  | [] => none
  | c :: v => if c = '#' then h1WsTry v (v.takeWhile isWs).length else none

theorem dropWhile_length_le (p : Char → Bool) :
    ∀ u : List Char, (u.dropWhile p).length ≤ u.length := by
  intro u
  induction u with
  | nil => simp
  | cons c t ih =>
    by_cases hc : p c
    · simp only [List.dropWhile_cons, hc, if_true, List.length_cons]
      omega
    · simp [List.dropWhile_cons, hc]

/-- Scan the line starts of the document left to right for the first H1
match: the `m` flag anchors `^` at the start and right after every line
terminator character. Each step skips at least one character, so the
wrapper's `u.length` fuel is sufficient. -/
def h1LinesAux : Nat → List Char → Option (List Char)
  | 0, u => h1Try u
  | fuel + 1, u =>
    match h1Try u with
    | some b => some b
    | none =>
      match u.dropWhile (fun c => !isLineTerm c) with
      | [] => none
      | _ :: t => h1LinesAux fuel t

/-- First H1 match over all line starts. -/
def h1ScanAux (u : List Char) : Option (List Char) :=
  h1LinesAux u.length u

/-- `extractTitle`: front-matter regex first, then the first H1 line,
then the fallback. -/
def extractTitle (s : List Char) (fallback : List Char) : List Char :=
  match (if ("---\n").toList.isPrefixOf s then titleScan (s.drop 4) else none) with
  | some g => jsTrim g
  | none =>
    match h1ScanAux s with
    | some g => jsTrim g
    | none => fallback

/-! ### `parseConfluenceUrl` (index.ts:51-79) -/

/-- Result of URL parsing (`interface ParsedConfluenceUrl`). -/
structure ParsedConfluenceUrl where
  spaceKey : List Char
  pageId : Option (List Char)
deriving DecidableEq, Repr

/-- `input.match(/\/spaces\/([^\/]+)/)`: the first position where
`/spaces/` is followed by at least one non-slash character; the capture is
the maximal non-slash run there. -/
def spacesMatch : List Char → Option (List Char)
  | [] => none
  | s@(_ :: t) =>
    if ("/spaces/").toList.isPrefixOf s then
      let seg := (s.drop 8).takeWhile (fun c => c ≠ '/')
      if seg ≠ [] then some seg else spacesMatch t
    else spacesMatch t

/-- Match `pat` followed by one or more digits (`(\d+)` greedy), scanning
left to right. -/
def digitsMatchAux (pat : List Char) : List Char → Option (List Char)
  | [] => none
  | s@(_ :: t) =>
    if pat.isPrefixOf s then
      let ds := (s.drop pat.length).takeWhile Char.isDigit
      if ds ≠ [] then some ds else digitsMatchAux pat t
    else digitsMatchAux pat t

/-- `parseConfluenceUrl`: non-URL inputs are returned as the space key;
URLs must contain `/spaces/<segment>` (otherwise the function throws), and
the page id comes from `/pages/edit-v2/<digits>` or else `/pages/<digits>`. -/
def parseConfluenceUrl (input : List Char) :
    Except (List Char) ParsedConfluenceUrl :=
  if ("http").toList.isPrefixOf input then
    match spacesMatch input with
    | none =>
      .error (("Could not extract space key from URL: ").toList ++ input)
    | some spaceKey =>
      let pageId :=
        match digitsMatchAux ("/pages/edit-v2/").toList input with
        | some d => some d
        | none => digitsMatchAux ("/pages/").toList input
      .ok ⟨spaceKey, pageId⟩
  else .ok ⟨input, none⟩

/-! ### Basic lemmas about the string primitives -/

theorem prefix_ex {pat s : List Char} :
    pat.isPrefixOf s = true ↔ ∃ t, s = pat ++ t := by
  rw [List.isPrefixOf_iff_prefix]
  constructor
  · rintro ⟨t, rfl⟩; exact ⟨t, rfl⟩
  · rintro ⟨t, rfl⟩; exact ⟨t, rfl⟩

theorem isPrefixOf_append_both {a u v : List Char} :
    (a ++ u).isPrefixOf (a ++ v) = u.isPrefixOf v := by
  induction a with
  | nil => rfl
  | cons c t ih => simp [List.isPrefixOf, ih]

theorem isPrefixOf_self_append {u t : List Char} :
    u.isPrefixOf (u ++ t) = true := by
  exact prefix_ex.mpr ⟨t, rfl⟩

theorem tickFree_iff {l : List Char} :
    tickFree l = true ↔ ∀ c ∈ l, c ≠ btick := by
  simp [tickFree, List.all_eq_true, decide_eq_true_iff]

theorem tickFree_append {a b : List Char} :
    tickFree (a ++ b) = (tickFree a && tickFree b) := by
  simp [tickFree, List.all_append]

theorem replaceFirst_of_isPrefixOf {pat rep s : List Char}
    (h : pat.isPrefixOf s = true) :
    replaceFirst pat rep s = rep ++ s.drop pat.length := by
  cases s with
  | nil =>
    rcases prefix_ex.mp h with ⟨t, ht⟩
    have hp : pat = [] := by
      cases pat with
      | nil => rfl
      | cons c u => simp at ht
    subst hp
    simp [replaceFirst]
  | cons c t => simp [replaceFirst, h]

theorem replaceFirst_cons_not {pat rep : List Char} {c : Char} {t : List Char}
    (h : ¬ pat.isPrefixOf (c :: t) = true) :
    replaceFirst pat rep (c :: t) = c :: replaceFirst pat rep t := by
  simp [replaceFirst, h]

theorem not_cons_isPrefixOf {hd : Char} {pt : List Char} {c : Char}
    {t : List Char} (hc : c ≠ hd) :
    ¬ (hd :: pt).isPrefixOf (c :: t) = true := by
  intro h
  rcases prefix_ex.mp h with ⟨u, hu⟩
  rw [List.cons_append] at hu
  exact hc (List.cons_eq_cons.mp hu).1

theorem replaceFirst_append_left {hd : Char} {pt rep a s : List Char}
    (ha : ∀ c ∈ a, c ≠ hd) :
    replaceFirst (hd :: pt) rep (a ++ s) = a ++ replaceFirst (hd :: pt) rep s := by
  induction a with
  | nil => rfl
  | cons c t ih =>
    rw [List.cons_append,
      replaceFirst_cons_not (not_cons_isPrefixOf (ha c (by simp))),
      ih (fun c hc' => ha c (by simp [hc'])), List.cons_append]

theorem replaceFirst_no_occur {hd : Char} {pt rep s : List Char}
    (hs : ∀ c ∈ s, c ≠ hd) :
    replaceFirst (hd :: pt) rep s = s := by
  induction s with
  | nil => rfl
  | cons c t ih =>
    rw [replaceFirst_cons_not (not_cons_isPrefixOf (hs c (by simp))),
      ih (fun c hc' => hs c (by simp [hc']))]

theorem findSub_of_isPrefixOf {pat s : List Char}
    (h : pat.isPrefixOf s = true) : findSub pat s = some 0 := by
  cases s with
  | nil => simp [findSub, h]
  | cons c t => simp [findSub, h]

theorem findSub_cons_not {pat : List Char} {c : Char} {t : List Char}
    (h : ¬ pat.isPrefixOf (c :: t) = true) :
    findSub pat (c :: t) = (findSub pat t).map (· + 1) := by
  simp [findSub, h]

theorem findSub_append_left {hd : Char} {pt a s : List Char}
    (ha : ∀ c ∈ a, c ≠ hd) :
    findSub (hd :: pt) (a ++ s) = (findSub (hd :: pt) s).map (· + a.length) := by
  induction a with
  | nil =>
    simp only [List.nil_append, List.length_nil]
    cases findSub (hd :: pt) s <;> rfl
  | cons c t ih =>
    rw [List.cons_append,
      findSub_cons_not (not_cons_isPrefixOf (ha c (by simp))),
      ih (fun c hc' => ha c (by simp [hc']))]
    cases findSub (hd :: pt) s <;> simp +arith

theorem findSub_none {hd : Char} {pt s : List Char}
    (hs : ∀ c ∈ s, c ≠ hd) : findSub (hd :: pt) s = none := by
  induction s with
  | nil => simp [findSub]
  | cons c t ih =>
    rw [findSub_cons_not (not_cons_isPrefixOf (hs c (by simp))),
      ih (fun c hc' => hs c (by simp [hc']))]
    rfl

/-! ### Structured documents

A structured document is a leading gap followed by alternating slots
(mermaid fences, or image placeholders after rewriting) and gaps. This is
the family of "cleanly delimited" documents over which the positive parts
of the extraction claims are proved: gaps and diagram sources contain no
backtick, and no gap right after a fence starts with `mermaid\n`. -/

/-- `mermaid\n`, the tail of the opening tag after the three backticks. -/
def mermTag : List Char := ("mermaid\n").toList

/-- `ermaid\n`. -/
def eTag : List Char := ("ermaid\n").toList

theorem openTag_shape : openTag = btick :: btick :: btick :: 'm' :: eTag := by
  decide

theorem openTag_shape' : openTag = btick :: btick :: btick :: mermTag := by
  decide

theorem mermTag_shape : mermTag = 'm' :: eTag := by decide

theorem closeTag_shape : closeTag = btick :: btick :: btick :: [] := by decide

theorem openTag_len : openTag.length = 11 := by decide

theorem eTag_chars : ∀ c ∈ eTag, c ≠ btick := by decide

theorem mermTag_chars : ∀ c ∈ mermTag, c ≠ btick ∧ c ≠ '!' := by decide

/-- One rewritable segment: an unprocessed mermaid fence with inner source
`c`, or an already-substituted placeholder string. -/
inductive Slot where
  | fence : List Char → Slot
  | img : List Char → Slot
deriving DecidableEq, Repr

/-- The text of a slot. -/
def slotStr : Slot → List Char
  | .fence c => fenceStr c
  | .img p => p

/-- Concatenate slots and their trailing gaps. -/
def assembleTail : List (Slot × List Char) → List Char
  | [] => []
  | (sl, g) :: r => slotStr sl ++ g ++ assembleTail r

/-- A structured document: leading gap, then slots with trailing gaps. -/
def assembleS (g0 : List Char) (l : List (Slot × List Char)) : List Char :=
  g0 ++ assembleTail l

/-- Well-formedness of a slot: fence sources are backtick-free;
placeholder strings are backtick-free and start with `!`. -/
def slotOK : Slot → Prop
  | .fence c => tickFree c = true
  | .img p => tickFree p = true ∧ p.head? = some '!'

/-- Well-formedness of a gap: backtick-free and not starting with
`mermaid\n` (which would let a closing fence spawn a spurious opening). -/
def gapOK (g : List Char) : Prop :=
  tickFree g = true ∧ mermTag.isPrefixOf g = false

/-- Well-formedness of a slot/gap list. -/
def WFS (l : List (Slot × List Char)) : Prop :=
  ∀ p ∈ l, slotOK p.1 ∧ gapOK p.2

instance : DecidablePred slotOK := fun sl => by
  cases sl <;> simp only [slotOK] <;> infer_instance

instance : DecidablePred gapOK := fun g => by
  simp only [gapOK]; infer_instance

instance (l : List (Slot × List Char)) : Decidable (WFS l) :=
  List.decidableBAll _ l

theorem fenceStr_shape (c : List Char) :
    fenceStr c = btick :: btick :: btick :: 'm' :: (eTag ++ (c ++ closeTag)) := by
  simp [fenceStr, openTag_shape, List.append_assoc]

theorem fenceStr_chars {c : List Char} (hc : tickFree c = true) :
    ∀ ch ∈ 'm' :: (eTag ++ c), ch ≠ btick := by
  intro ch hch
  rcases List.mem_cons.mp hch with h | h
  · subst h; decide
  · rcases List.mem_append.mp h with h | h
    · exact eTag_chars ch h
    · exact tickFree_iff.mp hc ch h

/-- Decompose the head of a well-formed slot/gap tail: empty, a
placeholder starting with `!`, or an opening fence. -/
theorem assembleTail_shape {l : List (Slot × List Char)} (hl : WFS l) :
    assembleTail l = [] ∨ (∃ z, assembleTail l = '!' :: z) ∨
      (∃ z, assembleTail l = btick :: btick :: btick :: 'm' :: z) := by
  cases l with
  | nil => exact Or.inl rfl
  | cons sg r =>
    obtain ⟨sl, g⟩ := sg
    have hok := hl (sl, g) (by simp)
    cases sl with
    | fence c =>
      refine Or.inr (Or.inr ⟨eTag ++ (c ++ closeTag) ++ (g ++ assembleTail r), ?_⟩)
      simp [assembleTail, slotStr, fenceStr_shape, List.append_assoc]
    | img p =>
      rcases hok.1 with ⟨_, hp⟩
      cases p with
      | nil => simp at hp
      | cons a q =>
        simp only [List.head?] at hp
        refine Or.inr (Or.inl ⟨q ++ (g ++ assembleTail r), ?_⟩)
        simp only [assembleTail, slotStr, List.cons_append, List.append_assoc]
        rw [Option.some_inj] at hp
        rw [hp]

/-- `mermaid\n` continued by anything cannot be a prefix of a gap followed
by a well-formed tail. -/
theorem no_merm_cont :
    ∀ (g : List Char) (m : List Char), (∀ ch ∈ m, ch ≠ btick ∧ ch ≠ '!') →
    m ≠ [] →
    ∀ (y x : List Char), tickFree g = true → m.isPrefixOf g = false →
    (y = [] ∨ (∃ z, y = '!' :: z) ∨ (∃ z, y = btick :: z)) →
    (m ++ x).isPrefixOf (g ++ y) = false := by
  intro g
  induction g with
  | nil =>
    intro m hm hmne y x _ _ hy
    cases m with
    | nil => exact absurd rfl hmne
    | cons m0 m1 =>
      have hm0 := hm m0 (by simp)
      rcases hy with rfl | ⟨z, rfl⟩ | ⟨z, rfl⟩
      · simp [List.isPrefixOf]
      · simp only [List.nil_append, List.cons_append, List.isPrefixOf]
        simp [hm0.2]
      · simp only [List.nil_append, List.cons_append, List.isPrefixOf]
        simp [hm0.1]
  | cons a g' ih =>
    intro m hm hmne y x hgt hgm hy
    cases m with
    | nil => exact absurd rfl hmne
    | cons m0 m1 =>
      by_cases hma : m0 = a
      · cases m1 with
        | nil =>
          exfalso
          have hp : (m0 :: ([] : List Char)).isPrefixOf (a :: g') = true := by
            simp [List.isPrefixOf, hma]
          rw [hp] at hgm
          exact Bool.true_eq_false.mp hgm
        | cons n0 n1 =>
          have hgm' : (n0 :: n1).isPrefixOf g' = false := by
            cases h : (n0 :: n1).isPrefixOf g' with
            | false => rfl
            | true =>
              exfalso
              have hp : (m0 :: n0 :: n1).isPrefixOf (a :: g') = true := by
                simp [List.isPrefixOf, hma, h]
              rw [hp] at hgm
              exact Bool.true_eq_false.mp hgm
          have htg' : tickFree g' = true := by
            rw [show (a :: g') = [a] ++ g' from rfl, tickFree_append,
              Bool.and_eq_true] at hgt
            exact hgt.2
          have hres := ih (n0 :: n1) (fun ch hch => hm ch (by simp [hch]))
            (by simp) y x htg' hgm' hy
          simp only [List.cons_append, List.isPrefixOf] at hres ⊢
          simp [hres]
      · simp only [List.cons_append, List.isPrefixOf]
        simp [show (m0 == a) = false from by simp [hma]]

theorem tickFree_cons {a : Char} {l : List Char} :
    tickFree (a :: l) = true ↔ a ≠ btick ∧ tickFree l = true := by
  simp [tickFree]

/-- Two backtick-free inner sources followed by closing fences can only
align as prefixes when they are equal. -/
theorem fence_inner_eq {c c' r : List Char} (hc : tickFree c = true)
    (hc' : tickFree c' = true)
    (h : (c ++ closeTag).isPrefixOf ((c' ++ closeTag) ++ r) = true) :
    c = c' := by
  induction c generalizing c' with
  | nil =>
    cases c' with
    | nil => rfl
    | cons b c2 =>
      exfalso
      have hb : b ≠ btick := (tickFree_cons.mp hc').1
      rw [closeTag_shape] at h
      simp only [List.nil_append, List.cons_append, List.isPrefixOf,
        Bool.and_eq_true, beq_iff_eq] at h
      exact hb h.1.symm
  | cons a c2 ih =>
    cases c' with
    | nil =>
      exfalso
      have ha : a ≠ btick := (tickFree_cons.mp hc).1
      rw [closeTag_shape] at h
      simp only [List.nil_append, List.cons_append, List.isPrefixOf,
        Bool.and_eq_true, beq_iff_eq] at h
      exact ha h.1
    | cons b c2' =>
      simp only [List.cons_append, List.isPrefixOf, Bool.and_eq_true,
        beq_iff_eq] at h
      obtain ⟨hab, h'⟩ := h
      rw [hab, ih (tickFree_cons.mp hc).2 (tickFree_cons.mp hc').2 h']

/-- The head-shape of a well-formed tail, weakened for `no_merm_cont`. -/
theorem assembleTail_shape_weak {l : List (Slot × List Char)} (hl : WFS l) :
    assembleTail l = [] ∨ (∃ z, assembleTail l = '!' :: z) ∨
      (∃ z, assembleTail l = btick :: z) := by
  rcases assembleTail_shape hl with h | ⟨z, h⟩ | ⟨z, h⟩
  · exact Or.inl h
  · exact Or.inr (Or.inl ⟨z, h⟩)
  · exact Or.inr (Or.inr ⟨btick :: btick :: 'm' :: z, h⟩)

theorem no_pat0 {g : List Char} {l : List (Slot × List Char)} {x : List Char}
    (hg : gapOK g) (hl : WFS l) :
    (mermTag ++ x).isPrefixOf (g ++ assembleTail l) = false :=
  no_merm_cont g mermTag mermTag_chars (by decide) (assembleTail l) x hg.1
    hg.2 (assembleTail_shape_weak hl)

theorem no_pat1 {g : List Char} {l : List (Slot × List Char)} {x : List Char}
    (hg : gapOK g) (hl : WFS l) :
    (btick :: (mermTag ++ x)).isPrefixOf (g ++ assembleTail l) = false := by
  cases g with
  | cons a g' =>
    have ha : a ≠ btick := (tickFree_cons.mp hg.1).1
    have hba : (btick == a) = false := by
      simp only [beq_eq_false_iff_ne]
      exact fun h => ha h.symm
    simp only [List.cons_append, List.isPrefixOf, hba, Bool.false_and]
  | nil =>
    simp only [List.nil_append]
    rcases assembleTail_shape hl with h | ⟨z, h⟩ | ⟨z, h⟩ <;> rw [h]
    · simp [List.isPrefixOf]
    · simp [List.isPrefixOf, show (btick == '!') = false from by decide]
    · simp [List.isPrefixOf, mermTag_shape,
        show ('m' == btick) = false from by decide]

theorem no_pat2 {g : List Char} {l : List (Slot × List Char)} {x : List Char}
    (hg : gapOK g) (hl : WFS l) :
    (btick :: btick :: (mermTag ++ x)).isPrefixOf (g ++ assembleTail l) = false := by
  cases g with
  | cons a g' =>
    have ha : a ≠ btick := (tickFree_cons.mp hg.1).1
    have hba : (btick == a) = false := by
      simp only [beq_eq_false_iff_ne]
      exact fun h => ha h.symm
    simp only [List.cons_append, List.isPrefixOf, hba, Bool.false_and]
  | nil =>
    simp only [List.nil_append]
    rcases assembleTail_shape hl with h | ⟨z, h⟩ | ⟨z, h⟩ <;> rw [h]
    · simp [List.isPrefixOf]
    · simp [List.isPrefixOf, show (btick == '!') = false from by decide]
    · simp [List.isPrefixOf, mermTag_shape,
        show ('m' == btick) = false from by decide]

/-- Crossing an unprocessed fence with a different inner source: the
replacement pattern cannot start anywhere inside it. -/
theorem replaceFirst_cross_fence {c c' p rest : List Char}
    (hc : tickFree c = true) (hc' : tickFree c' = true) (hne : c' ≠ c)
    (h0 : (mermTag ++ (c ++ closeTag)).isPrefixOf rest = false)
    (h1 : (btick :: (mermTag ++ (c ++ closeTag))).isPrefixOf rest = false)
    (h2 : (btick :: btick :: (mermTag ++ (c ++ closeTag))).isPrefixOf rest = false) :
    replaceFirst (fenceStr c) p (fenceStr c' ++ rest) =
      fenceStr c' ++ replaceFirst (fenceStr c) p rest := by
  have hpat := fenceStr_shape c
  have e1 : fenceStr c' ++ rest =
      btick :: btick :: btick :: (('m' :: (eTag ++ c')) ++ (closeTag ++ rest)) := by
    rw [fenceStr_shape]
    simp [List.append_assoc]
  have hp0 : ((fenceStr c).isPrefixOf
      (btick :: btick :: btick :: (('m' :: (eTag ++ c')) ++ (closeTag ++ rest)))) = false := by
    rw [← e1]
    cases hq : (fenceStr c).isPrefixOf (fenceStr c' ++ rest) with
    | false => rfl
    | true =>
      exfalso
      rw [show fenceStr c = openTag ++ (c ++ closeTag) by
            simp [fenceStr, List.append_assoc],
          show fenceStr c' ++ rest = openTag ++ ((c' ++ closeTag) ++ rest) by
            simp [fenceStr, List.append_assoc],
          isPrefixOf_append_both] at hq
      exact hne (fence_inner_eq hc hc' hq).symm
  have hp1 : ((fenceStr c).isPrefixOf
      (btick :: btick :: (('m' :: (eTag ++ c')) ++ (closeTag ++ rest)))) = false := by
    rw [hpat]
    simp [List.isPrefixOf, List.cons_append,
      show (btick == 'm') = false from by decide]
  have hp2 : ((fenceStr c).isPrefixOf
      (btick :: (('m' :: (eTag ++ c')) ++ (closeTag ++ rest)))) = false := by
    rw [hpat]
    simp [List.isPrefixOf, List.cons_append,
      show (btick == 'm') = false from by decide]
  have hmermc : mermTag ++ (c ++ closeTag) = 'm' :: (eTag ++ (c ++ closeTag)) := by
    rw [mermTag_shape]; simp
  have hq0 : ((btick :: btick :: btick :: 'm' :: (eTag ++ (c ++ closeTag))).isPrefixOf
      (btick :: btick :: btick :: rest)) = false := by
    simp only [List.isPrefixOf, beq_self_eq_true, Bool.true_and]
    rw [← hmermc]
    exact h0
  have hq1 : ((btick :: btick :: btick :: 'm' :: (eTag ++ (c ++ closeTag))).isPrefixOf
      (btick :: btick :: rest)) = false := by
    simp only [List.isPrefixOf, beq_self_eq_true, Bool.true_and]
    rw [hmermc] at h1
    exact h1
  have hq2 : ((btick :: btick :: btick :: 'm' :: (eTag ++ (c ++ closeTag))).isPrefixOf
      (btick :: rest)) = false := by
    simp only [List.isPrefixOf, beq_self_eq_true, Bool.true_and]
    rw [hmermc] at h2
    exact h2
  rw [e1]
  rw [replaceFirst_cons_not (by rw [hp0]; exact Bool.false_ne_true),
      replaceFirst_cons_not (by rw [hp1]; exact Bool.false_ne_true),
      replaceFirst_cons_not (by rw [hp2]; exact Bool.false_ne_true)]
  rw [hpat]
  rw [replaceFirst_append_left (fenceStr_chars hc')]
  rw [show closeTag ++ rest = btick :: btick :: btick :: rest by
    rw [closeTag_shape]; simp]
  rw [replaceFirst_cons_not (by rw [hq0]; exact Bool.false_ne_true),
      replaceFirst_cons_not (by rw [hq1]; exact Bool.false_ne_true),
      replaceFirst_cons_not (by rw [hq2]; exact Bool.false_ne_true)]
  rw [fenceStr_shape c']
  simp only [List.append_assoc, List.cons_append, ← hpat]
  rw [closeTag_shape]
  simp

/-- The effect of one `replaceFirst` on the slot decomposition: turn the
first unprocessed fence whose full text equals `t` into the placeholder. -/
def replaceSlot (t p : List Char) : List (Slot × List Char) → List (Slot × List Char)
  | [] => []
  | (Slot.fence c, g) :: r =>
    if fenceStr c = t then (Slot.img p, g) :: r
    else (Slot.fence c, g) :: replaceSlot t p r
  | (Slot.img q, g) :: r => (Slot.img q, g) :: replaceSlot t p r

/-- Master lemma: on a well-formed structured document, replacing the
first occurrence of a fence's full text acts exactly on the slot
decomposition. -/
theorem replaceFirst_assembled {c p : List Char} (hc : tickFree c = true)
    (hp : slotOK (.img p)) :
    ∀ (l : List (Slot × List Char)) (g0 : List Char), tickFree g0 = true →
    WFS l →
    replaceFirst (fenceStr c) p (assembleS g0 l) =
      assembleS g0 (replaceSlot (fenceStr c) p l) := by
  intro l
  induction l with
  | nil =>
    intro g0 hg0 _
    simp only [assembleS, assembleTail, List.append_nil, replaceSlot]
    rw [fenceStr_shape]
    exact replaceFirst_no_occur (tickFree_iff.mp hg0)
  | cons sg r ih =>
    intro g0 hg0 hl
    obtain ⟨sl, g⟩ := sg
    have hok := hl (sl, g) (by simp)
    have hgt : tickFree g = true := hok.2.1
    have hlr : WFS r := fun q hq => hl q (by simp [hq])
    cases sl with
    | img q =>
      rcases hok.1 with ⟨hqt, _⟩
      rw [show assembleS g0 ((Slot.img q, g) :: r) =
          (g0 ++ q) ++ assembleS g r from by
        simp [assembleS, assembleTail, slotStr, List.append_assoc]]
      rw [fenceStr_shape]
      rw [replaceFirst_append_left (by
        intro ch hch
        rcases List.mem_append.mp hch with h | h
        · exact tickFree_iff.mp hg0 ch h
        · exact tickFree_iff.mp hqt ch h)]
      rw [← fenceStr_shape, ih g hgt hlr]
      simp [assembleS, assembleTail, slotStr, replaceSlot, List.append_assoc]
    | fence c' =>
      by_cases hcc : c' = c
      · subst hcc
        rw [show assembleS g0 ((Slot.fence c', g) :: r) =
            g0 ++ (fenceStr c' ++ assembleS g r) from by
          simp [assembleS, assembleTail, slotStr, List.append_assoc]]
        rw [fenceStr_shape]
        rw [replaceFirst_append_left (tickFree_iff.mp hg0)]
        rw [← fenceStr_shape]
        rw [replaceFirst_of_isPrefixOf isPrefixOf_self_append]
        rw [List.drop_left]
        simp [assembleS, assembleTail, slotStr, replaceSlot, List.append_assoc]
      · have hne : ¬ fenceStr c' = fenceStr c := by
          intro h
          apply hcc
          have h' := congrArg (fun z => (z.drop openTag.length).take c'.length) h
          simp only [fenceStr] at h'
          rw [List.append_assoc, List.append_assoc, List.drop_left,
            List.drop_left, List.take_left] at h'
          rw [h']
          have hlen : c'.length = c.length := by
            have := congrArg List.length h
            simp [fenceStr] at this
            omega
          rw [hlen, List.take_left]
        rw [show assembleS g0 ((Slot.fence c', g) :: r) =
            g0 ++ (fenceStr c' ++ (g ++ assembleTail r)) from by
          simp [assembleS, assembleTail, slotStr, List.append_assoc]]
        rw [fenceStr_shape c]
        rw [replaceFirst_append_left (tickFree_iff.mp hg0)]
        rw [← fenceStr_shape c]
        rw [replaceFirst_cross_fence hc hok.1 hcc
          (no_pat0 hok.2 hlr) (no_pat1 hok.2 hlr) (no_pat2 hok.2 hlr)]
        rw [show (g ++ assembleTail r : List Char) = assembleS g r from rfl]
        rw [ih g hgt hlr]
        simp only [replaceSlot, if_neg hne]
        simp [assembleS, assembleTail, slotStr, List.append_assoc]

theorem findSub_drop {pat : List Char} :
    ∀ {s : List Char} {i : Nat}, findSub pat s = some i →
    pat.isPrefixOf (s.drop i) = true := by
  intro s
  induction s with
  | nil =>
    intro i h
    simp only [findSub] at h
    split at h
    next hc => cases h; simpa using hc
    next hc => exact absurd h (by simp)
  | cons c t ih =>
    intro i h
    simp only [findSub] at h
    split at h
    next hc => cases h; simpa using hc
    next hc =>
      rcases Option.map_eq_some'.mp h with ⟨j, hj, rfl⟩
      simpa using ih hj

theorem findSub_le_length {pat : List Char} :
    ∀ {s : List Char} {i : Nat}, findSub pat s = some i → i ≤ s.length := by
  intro s
  induction s with
  | nil =>
    intro i h
    simp only [findSub] at h
    split at h
    · cases h; simp
    · exact absurd h (by simp)
  | cons c t ih =>
    intro i h
    simp only [findSub] at h
    split at h
    · cases h; simp
    · rcases Option.map_eq_some'.mp h with ⟨j, hj, rfl⟩
      simpa using ih hj

theorem findSub_bound {pat : List Char} {s : List Char} {i : Nat}
    (h : findSub pat s = some i) : i + pat.length ≤ s.length := by
  have hp := findSub_drop h
  rcases prefix_ex.mp hp with ⟨t, ht⟩
  have hlen := congrArg List.length ht
  simp only [List.length_drop, List.length_append] at hlen
  have hle := findSub_le_length h
  omega

theorem scanAux_congr :
    ∀ (fuel fuel' : Nat) (s : List Char), s.length ≤ fuel → s.length ≤ fuel' →
    scanAux fuel s = scanAux fuel' s := by
  intro fuel
  induction fuel with
  | zero =>
    intro fuel' s hf hf'
    have hs : s = [] := List.length_eq_zero.mp (by omega)
    subst hs
    cases fuel' with
    | zero => rfl
    | succ n =>
      simp [scanAux, show findSub openTag ([] : List Char) = none from by decide]
  | succ f ih =>
    intro fuel' s hf hf'
    cases fuel' with
    | zero =>
      have hs : s = [] := List.length_eq_zero.mp (by omega)
      subst hs
      simp [scanAux, show findSub openTag ([] : List Char) = none from by decide]
    | succ f' =>
      cases hi : findSub openTag s with
      | none => simp [scanAux, hi]
      | some i =>
        cases hj : findSub closeTag (s.drop (i + 11)) with
        | none => simp [scanAux, hi, hj]
        | some j =>
          have hib : i + 11 ≤ s.length := by
            have := findSub_bound hi
            simpa [openTag_len] using this
          have hjb : j + 3 ≤ s.length - (i + 11) := by
            have := findSub_bound hj
            simpa [show closeTag.length = 3 from by decide] using this
          simp only [scanAux, hi, hj]
          congr 1
          apply ih
          · simp only [List.length_drop]; omega
          · simp only [List.length_drop]; omega

theorem scan_none {s : List Char} (h : findSub openTag s = none) :
    scan s = [] := by
  show scanAux s.length s = []
  rcases hn : s.length with _ | n
  · rfl
  · simp [scanAux, h]

theorem scan_some {s : List Char} {i j : Nat}
    (hi : findSub openTag s = some i)
    (hj : findSub closeTag (s.drop (i + 11)) = some j) :
    scan s = (fenceStr ((s.drop (i + 11)).take j), (s.drop (i + 11)).take j) ::
      scan ((s.drop (i + 11)).drop (j + 3)) := by
  obtain ⟨n, hn⟩ : ∃ n, s.length = n + 1 :=
    ⟨s.length - 1, by
      have : i < s.length := @findSub_lt_length openTag (by decide) s i hi
      omega⟩
  have hib : i + 11 ≤ s.length := by
    have := findSub_bound hi
    simpa [openTag_len] using this
  have hjb : j + 3 ≤ s.length - (i + 11) := by
    have := findSub_bound hj
    simpa [show closeTag.length = 3 from by decide] using this
  show scanAux s.length s = _
  rw [hn]
  simp only [scanAux, hi, hj]
  congr 1
  apply scanAux_congr
  · simp only [List.length_drop]
    omega
  · rfl

/-- On a well-formed structured document whose slots are all fences, the
regex scan recovers exactly the blocks, in order. -/
theorem scan_assembled :
    ∀ (ps : List (List Char × List Char)) (g0 : List Char),
    tickFree g0 = true →
    (∀ q ∈ ps, tickFree q.1 = true ∧ tickFree q.2 = true) →
    scan (assembleS g0 (ps.map fun q => (Slot.fence q.1, q.2))) =
      ps.map fun q => (fenceStr q.1, q.1) := by
  intro ps
  induction ps with
  | nil =>
    intro g0 hg0 _
    apply scan_none
    simp only [assembleS, List.map_nil, assembleTail, List.append_nil]
    rw [openTag_shape]
    exact findSub_none (tickFree_iff.mp hg0)
  | cons q ps' ih =>
    intro g0 hg0 hps
    obtain ⟨c1, g1⟩ := q
    have hc1 : tickFree c1 = true := (hps (c1, g1) (by simp)).1
    have hg1 : tickFree g1 = true := (hps (c1, g1) (by simp)).2
    have hps' : ∀ q ∈ ps', tickFree q.1 = true ∧ tickFree q.2 = true :=
      fun q hq => hps q (by simp [hq])
    have hs : assembleS g0 (((c1, g1) :: ps').map fun q => (Slot.fence q.1, q.2)) =
        (g0 ++ openTag) ++ ((c1 ++ closeTag) ++
          assembleS g1 (ps'.map fun q => (Slot.fence q.1, q.2))) := by
      simp [assembleS, assembleTail, slotStr, fenceStr, List.append_assoc]
    rw [hs]
    have hfo : findSub openTag ((g0 ++ openTag) ++ ((c1 ++ closeTag) ++
        assembleS g1 (ps'.map fun q => (Slot.fence q.1, q.2)))) = some g0.length := by
      rw [List.append_assoc]
      rw [openTag_shape']
      rw [findSub_append_left (tickFree_iff.mp hg0)]
      rw [← openTag_shape']
      rw [findSub_of_isPrefixOf isPrefixOf_self_append]
      simp
    have hdrop : (((g0 ++ openTag) ++ ((c1 ++ closeTag) ++
        assembleS g1 (ps'.map fun q => (Slot.fence q.1, q.2)))).drop (g0.length + 11)) =
        (c1 ++ closeTag) ++ assembleS g1 (ps'.map fun q => (Slot.fence q.1, q.2)) := by
      rw [show g0.length + 11 = (g0 ++ openTag).length from by
        simp [openTag_len]]
      exact List.drop_left _ _
    have hfc : findSub closeTag ((c1 ++ closeTag) ++
        assembleS g1 (ps'.map fun q => (Slot.fence q.1, q.2))) = some c1.length := by
      rw [List.append_assoc]
      rw [closeTag_shape]
      rw [findSub_append_left (tickFree_iff.mp hc1)]
      rw [← closeTag_shape]
      rw [findSub_of_isPrefixOf isPrefixOf_self_append]
      simp
    rw [scan_some hfo (by rw [hdrop]; exact hfc)]
    rw [hdrop]
    have htake : ((c1 ++ closeTag) ++
        assembleS g1 (ps'.map fun q => (Slot.fence q.1, q.2))).take c1.length = c1 := by
      rw [List.append_assoc]
      exact List.take_left _ _
    have hdrop2 : ((c1 ++ closeTag) ++
        assembleS g1 (ps'.map fun q => (Slot.fence q.1, q.2))).drop (c1.length + 3) =
        assembleS g1 (ps'.map fun q => (Slot.fence q.1, q.2)) := by
      rw [show c1.length + 3 = (c1 ++ closeTag).length from by
        simp [closeTag_shape]]
      exact List.drop_left _ _
    rw [htake, hdrop2, ih g1 hg1 hps']
    simp

/-! ### Characterizing the per-block loop -/

/-- The attachment sequence produced by the loop on a block list: one
entry per successful render call, in document order, duplicates included. -/
def attachOf (render : Nat → List Char → Option (List Nat)) :
    Nat → List (List Char × List Char) → List Attachment
  | _, [] => []
  | i, (_, inner) :: rest =>
    match render i (jsTrim inner) with
    | some png =>
      ⟨generateFilename (jsTrim inner), png⟩ :: attachOf render (i + 1) rest
    | none => attachOf render (i + 1) rest

/-- The replacement map produced by the loop when all full texts are
distinct: one entry per successful block, in order. -/
def mapOf (render : Nat → List Char → Option (List Nat)) :
    Nat → List (List Char × List Char) → List (List Char × List Char)
  | _, [] => []
  | i, (full, inner) :: rest =>
    match render i (jsTrim inner) with
    | some _ =>
      (full, placeholderFor (generateFilename (jsTrim inner))) ::
        mapOf render (i + 1) rest
    | none => mapOf render (i + 1) rest

theorem processLoop_fst (render : Nat → List Char → Option (List Nat)) :
    ∀ (blocks : List (List Char × List Char)) (i : Nat)
      (atts : List Attachment) (m : List (List Char × List Char)),
    (processLoop render blocks i atts m).1 = atts ++ attachOf render i blocks := by
  intro blocks
  induction blocks with
  | nil => intro i atts m; simp [processLoop, attachOf]
  | cons b rest ih =>
    intro i atts m
    obtain ⟨full, inner⟩ := b
    simp only [processLoop, attachOf]
    cases render i (jsTrim inner) with
    | some png => rw [ih]; simp
    | none => rw [ih]

theorem mapSet_notmem {k v : List Char} :
    ∀ {m : List (List Char × List Char)}, (∀ kv ∈ m, kv.1 ≠ k) →
    mapSet k v m = m ++ [(k, v)] := by
  intro m
  induction m with
  | nil => intro _; rfl
  | cons kv r ih =>
    intro h
    obtain ⟨k', v'⟩ := kv
    have hk : k' ≠ k := h (k', v') (by simp)
    simp only [mapSet, if_neg hk, List.cons_append]
    rw [ih (fun kv hkv => h kv (by simp [hkv]))]

theorem processLoop_snd (render : Nat → List Char → Option (List Nat)) :
    ∀ (blocks : List (List Char × List Char)) (i : Nat)
      (atts : List Attachment) (m : List (List Char × List Char)),
    (blocks.map Prod.fst).Pairwise (· ≠ ·) →
    (∀ kv ∈ m, ∀ b ∈ blocks, kv.1 ≠ b.1) →
    (processLoop render blocks i atts m).2 = m ++ mapOf render i blocks := by
  intro blocks
  induction blocks with
  | nil => intro i atts m _ _; simp [processLoop, mapOf]
  | cons b rest ih =>
    intro i atts m hdist hdisj
    obtain ⟨full, inner⟩ := b
    simp only [List.map_cons, List.pairwise_cons] at hdist
    simp only [processLoop, mapOf]
    cases render i (jsTrim inner) with
    | some png =>
      rw [mapSet_notmem (fun kv hkv => hdisj kv hkv (full, inner) (by simp))]
      rw [ih (i + 1) _ _ hdist.2 ?_]
      · simp
      · intro kv hkv b hb
        rcases List.mem_append.mp hkv with h | h
        · exact hdisj kv h b (by simp [hb])
        · simp only [List.mem_singleton] at h
          subst h
          exact hdist.1 b.1 (List.mem_map_of_mem Prod.fst hb)
    | none =>
      rw [ih (i + 1) _ _ hdist.2
        (fun kv hkv b hb => hdisj kv hkv b (by simp [hb]))]

/-! ### Well-formedness of generated filenames and placeholders -/

theorem leBytes_mem_lt {n x : Nat} : ∀ b ∈ leBytes n x, b < 256 := by
  intro b hb
  simp only [leBytes, List.mem_map] at hb
  rcases hb with ⟨i, _, rfl⟩
  exact Nat.mod_lt _ (by omega)

theorem byteHex_ok {b : Nat} (hb : b < 256) :
    ∀ ch ∈ byteHex b, ch ≠ btick ∧ isHexDigitCh ch = true := by
  have h1 : b / 16 < 16 := by omega
  have h2 : b % 16 < 16 := Nat.mod_lt _ (by omega)
  intro ch hch
  have hx : ∀ n < 16, hexChar n ≠ btick ∧ isHexDigitCh (hexChar n) = true := by
    decide
  simp only [byteHex, List.mem_cons, List.mem_singleton] at hch
  rcases hch with rfl | rfl | h
  · exact hx _ h1
  · exact hx _ h2
  · exact absurd h (by simp)

theorem md5hex_ok {m : List Nat} :
    ∀ ch ∈ md5hex m, ch ≠ btick ∧ isHexDigitCh ch = true := by
  intro ch hch
  simp only [md5hex, List.mem_flatten, List.mem_map] at hch
  rcases hch with ⟨l, ⟨b, hb, rfl⟩, hchl⟩
  have hblt : b < 256 := by
    simp only [md5Bytes, List.mem_append] at hb
    rcases hb with ((h | h) | h) | h <;> exact leBytes_mem_lt _ h
  exact byteHex_ok hblt ch hchl

theorem generateFilename_tickFree (x : List Char) :
    tickFree (generateFilename x) = true := by
  rw [tickFree_iff]
  intro ch hch
  simp only [generateFilename, List.mem_append] at hch
  rcases hch with (h | h) | h
  · revert ch h; decide
  · exact (md5hex_ok ch (List.mem_of_mem_take h)).1
  · revert ch h; decide

theorem fenceStr_inj {c c' : List Char} (h : fenceStr c = fenceStr c') :
    c = c' := by
  have hlen : c.length = c'.length := by
    have hl := congrArg List.length h
    simp [fenceStr] at hl
    omega
  have h' := congrArg (fun z => (z.drop openTag.length).take c.length) h
  simp only [fenceStr] at h'
  rw [List.append_assoc, List.append_assoc, List.drop_left, List.drop_left,
    List.take_left] at h'
  rw [h', hlen, List.take_left]

theorem placeholderFor_slotOK (x : List Char) :
    slotOK (.img (placeholderFor (generateFilename x))) := by
  constructor
  · rw [tickFree_iff]
    intro ch hch
    have hfn := tickFree_iff.mp (generateFilename_tickFree x)
    simp only [placeholderFor, List.mem_append] at hch
    rcases hch with (((h | h) | h) | h) | h
    · revert ch h; decide
    · exact hfn ch h
    · revert ch h; decide
    · exact hfn ch h
    · revert ch h; decide
  · rfl

theorem replaceSlot_WFS {t p : List Char} (hp : slotOK (.img p)) :
    ∀ {l : List (Slot × List Char)}, WFS l → WFS (replaceSlot t p l) := by
  intro l
  induction l with
  | nil => intro h; exact h
  | cons sg r ih =>
    intro hl
    obtain ⟨sl, g⟩ := sg
    have hok := hl (sl, g) (by simp)
    have hlr : WFS r := fun q hq => hl q (by simp [hq])
    cases sl with
    | fence c =>
      by_cases hcc : fenceStr c = t
      · simp only [replaceSlot, if_pos hcc]
        intro q hq
        rcases List.mem_cons.mp hq with rfl | hq
        · exact ⟨hp, hok.2⟩
        · exact hl q (by simp [hq])
      · simp only [replaceSlot, if_neg hcc]
        intro q hq
        rcases List.mem_cons.mp hq with rfl | hq
        · exact hok
        · exact ih hlr q hq
    | img q' =>
      simp only [replaceSlot]
      intro q hq
      rcases List.mem_cons.mp hq with rfl | hq
      · exact hok
      · exact ih hlr q hq

theorem foldl_replaceFirst_assembled :
    ∀ (E : List (List Char × List Char)) (l : List (Slot × List Char))
      (g0 : List Char), tickFree g0 = true → WFS l →
    (∀ e ∈ E, (∃ c, e.1 = fenceStr c ∧ tickFree c = true) ∧ slotOK (.img e.2)) →
    E.foldl (fun acc kv => replaceFirst kv.1 kv.2 acc) (assembleS g0 l) =
      assembleS g0 (E.foldl (fun acc kv => replaceSlot kv.1 kv.2 acc) l) := by
  intro E
  induction E with
  | nil => intro l g0 _ _ _; rfl
  | cons e E' ih =>
    intro l g0 hg0 hl hE
    obtain ⟨⟨c, hec, hct⟩, himg⟩ := hE e (by simp)
    simp only [List.foldl_cons]
    have hstep : replaceFirst e.1 e.2 (assembleS g0 l) =
        assembleS g0 (replaceSlot e.1 e.2 l) := by
      rw [hec]
      exact replaceFirst_assembled hct himg l g0 hg0 hl
    rw [hstep]
    exact ih _ g0 hg0
      (by rw [hec]; exact replaceSlot_WFS himg hl)
      (fun e' he' => hE e' (by simp [he']))

/-- The end state of the rewrite pass on a structured document: each
successfully rendered block becomes its placeholder, each failed block
keeps its original fence. -/
def finalSlots (render : Nat → List Char → Option (List Nat)) :
    Nat → List (List Char × List Char) → List (Slot × List Char)
  | _, [] => []
  | i, (c, g) :: rest =>
    (match render i (jsTrim c) with
     | some _ => (Slot.img (placeholderFor (generateFilename (jsTrim c))), g)
     | none => (Slot.fence c, g)) :: finalSlots render (i + 1) rest

theorem foldl_replaceSlot_img {q g : List Char} :
    ∀ (E : List (List Char × List Char)) (l : List (Slot × List Char)),
    E.foldl (fun acc kv => replaceSlot kv.1 kv.2 acc) ((Slot.img q, g) :: l) =
      (Slot.img q, g) :: E.foldl (fun acc kv => replaceSlot kv.1 kv.2 acc) l := by
  intro E
  induction E with
  | nil => intro l; rfl
  | cons e E' ih =>
    intro l
    simp only [List.foldl_cons, replaceSlot]
    exact ih _

theorem foldl_replaceSlot_fence_skip {c : List Char} {g : List Char} :
    ∀ (E : List (List Char × List Char)) (l : List (Slot × List Char)),
    (∀ e ∈ E, e.1 ≠ fenceStr c) →
    E.foldl (fun acc kv => replaceSlot kv.1 kv.2 acc) ((Slot.fence c, g) :: l) =
      (Slot.fence c, g) :: E.foldl (fun acc kv => replaceSlot kv.1 kv.2 acc) l := by
  intro E
  induction E with
  | nil => intro l _; rfl
  | cons e E' ih =>
    intro l hE
    have hne : ¬ fenceStr c = e.1 := fun h => hE e (by simp) h.symm
    simp only [List.foldl_cons, replaceSlot, if_neg hne]
    exact ih _ (fun e' he' => hE e' (by simp [he']))

theorem mapOf_keys (render : Nat → List Char → Option (List Nat)) :
    ∀ (ps : List (List Char × List Char)) (i : Nat) (e : List Char × List Char),
    e ∈ mapOf render i (ps.map fun q => (fenceStr q.1, q.1)) →
    ∃ c, c ∈ ps.map Prod.fst ∧
      e = (fenceStr c, placeholderFor (generateFilename (jsTrim c))) := by
  intro ps
  induction ps with
  | nil => intro i e h; simp [mapOf] at h
  | cons q ps' ih =>
    intro i e h
    obtain ⟨c0, g0⟩ := q
    simp only [List.map_cons, mapOf] at h
    cases hrr : render i (jsTrim c0) with
    | some png =>
      rw [hrr] at h
      simp only at h
      rcases List.mem_cons.mp h with rfl | h'
      · exact ⟨c0, by simp, rfl⟩
      · rcases ih (i + 1) e h' with ⟨c, hc, he⟩
        exact ⟨c, by simp [List.mem_map] at hc ⊢; tauto, he⟩
    | none =>
      rw [hrr] at h
      simp only at h
      rcases ih (i + 1) e h with ⟨c, hc, he⟩
      exact ⟨c, by simp [List.mem_map] at hc ⊢; tauto, he⟩

theorem foldl_replaceSlot_final (render : Nat → List Char → Option (List Nat)) :
    ∀ (ps : List (List Char × List Char)) (i : Nat),
    (ps.map Prod.fst).Pairwise (· ≠ ·) →
    (mapOf render i (ps.map fun q => (fenceStr q.1, q.1))).foldl
      (fun acc kv => replaceSlot kv.1 kv.2 acc)
      (ps.map fun q => (Slot.fence q.1, q.2)) =
    finalSlots render i ps := by
  intro ps
  induction ps with
  | nil => intro i _; rfl
  | cons q ps' ih =>
    intro i hdist
    obtain ⟨c0, gg⟩ := q
    simp only [List.map_cons, List.pairwise_cons] at hdist
    simp only [List.map_cons, mapOf, finalSlots]
    cases hrr : render i (jsTrim c0) with
    | some png =>
      simp only [hrr]
      simp only [List.foldl_cons, replaceSlot, eq_self_iff_true, if_true]
      rw [foldl_replaceSlot_img]
      rw [ih (i + 1) hdist.2]
    | none =>
      simp only [hrr]
      rw [foldl_replaceSlot_fence_skip _ _ ?_]
      · rw [ih (i + 1) hdist.2]
      · intro e he
        rcases mapOf_keys render ps' (i + 1) e he with ⟨c, hc, rfl⟩
        intro hcon
        have : c = c0 := fenceStr_inj hcon
        subst this
        exact hdist.1 c hc rfl

theorem processMermaidBlocks_eq (render : Nat → List Char → Option (List Nat))
    (markdown : List Char) :
    processMermaidBlocks render markdown =
      ((processLoop render (scan markdown) 0 [] []).2.foldl
        (fun acc kv => replaceFirst kv.1 kv.2 acc) markdown,
       (processLoop render (scan markdown) 0 [] []).1) := by
  simp only [processMermaidBlocks]

/-- Pipeline theorem: on a cleanly delimited document with pairwise
distinct inner sources, the extraction rewrites exactly the successfully
rendered blocks to placeholders, keeps failed blocks as their original
fences, and collects one attachment per successful render in order. -/
theorem processMermaid_assembled
    (render : Nat → List Char → Option (List Nat))
    (g0 : List Char) (ps : List (List Char × List Char))
    (hg0 : tickFree g0 = true)
    (hps : ∀ q ∈ ps, tickFree q.1 = true ∧ gapOK q.2)
    (hdist : (ps.map Prod.fst).Pairwise (· ≠ ·)) :
    processMermaidBlocks render
        (assembleS g0 (ps.map fun q => (Slot.fence q.1, q.2))) =
      (assembleS g0 (finalSlots render 0 ps),
       attachOf render 0 (ps.map fun q => (fenceStr q.1, q.1))) := by
  have hWFS : WFS (ps.map fun q => (Slot.fence q.1, q.2)) := by
    intro q hq
    simp only [List.mem_map] at hq
    rcases hq with ⟨q', hq', rfl⟩
    exact ⟨(hps q' hq').1, (hps q' hq').2⟩
  have hscan := scan_assembled ps g0 hg0
    (fun q hq => ⟨(hps q hq).1, (hps q hq).2.1⟩)
  have hfullsdist :
      ((ps.map fun q => (fenceStr q.1, q.1)).map Prod.fst).Pairwise (· ≠ ·) := by
    simp only [List.map_map]
    have h1 : ps.Pairwise (fun a b => a.1 ≠ b.1) := by
      rw [List.pairwise_map] at hdist
      exact hdist
    have h2 : ps.Pairwise (fun a b => fenceStr a.1 ≠ fenceStr b.1) :=
      h1.imp (fun h => fun heq => h (fenceStr_inj heq))
    rw [List.pairwise_map]
    exact h2
  rw [processMermaidBlocks_eq, hscan]
  rw [processLoop_fst, processLoop_snd render _ 0 [] [] hfullsdist (by simp)]
  simp only [List.nil_append]
  have hEntries : ∀ e ∈ mapOf render 0 (ps.map fun q => (fenceStr q.1, q.1)),
      (∃ c, e.1 = fenceStr c ∧ tickFree c = true) ∧ slotOK (.img e.2) := by
    intro e he
    rcases mapOf_keys render ps 0 e he with ⟨c, hc, rfl⟩
    have hcin : ∃ q ∈ ps, q.1 = c := by
      simp only [List.mem_map] at hc
      rcases hc with ⟨q, hq, rfl⟩
      exact ⟨q, hq, rfl⟩
    rcases hcin with ⟨q, hq, rfl⟩
    exact ⟨⟨q.1, rfl, (hps q hq).1⟩, placeholderFor_slotOK _⟩
  rw [foldl_replaceFirst_assembled _ _ g0 hg0 hWFS hEntries]
  rw [foldl_replaceSlot_final render ps 0 hdist]

/-! ### Further structure of `attachOf` and `finalSlots` -/

theorem attachOf_mem (render : Nat → List Char → Option (List Nat)) :
    ∀ (blocks : List (List Char × List Char)) (i k : Nat)
      (hk : k < blocks.length) (d : List Nat),
    render (i + k) (jsTrim (blocks.get ⟨k, hk⟩).2) = some d →
    (⟨generateFilename (jsTrim (blocks.get ⟨k, hk⟩).2), d⟩ : Attachment) ∈
      attachOf render i blocks := by
  intro blocks
  induction blocks with
  | nil => intro i k hk; simp at hk
  | cons b rest ih =>
    intro i k hk d hr
    obtain ⟨full, inner⟩ := b
    cases k with
    | zero =>
      simp only [List.get] at hr ⊢
      simp only [attachOf]
      rw [show i + 0 = i from rfl] at hr
      rw [hr]
      simp
    | succ k' =>
      simp only [List.get] at hr ⊢
      have hk' : k' < rest.length := by simpa using hk
      have := ih (i + 1) k' hk' d (by
        rw [show i + 1 + k' = i + (k' + 1) from by omega]
        exact hr)
      simp only [attachOf]
      cases render i (jsTrim inner) with
      | some png => exact List.mem_cons_of_mem _ this
      | none => exact this

theorem attachOf_source (render : Nat → List Char → Option (List Nat)) :
    ∀ (blocks : List (List Char × List Char)) (i : Nat) (a : Attachment),
    a ∈ attachOf render i blocks →
    ∃ k, ∃ hk : k < blocks.length,
      render (i + k) (jsTrim (blocks.get ⟨k, hk⟩).2) = some a.data ∧
      a.filename = generateFilename (jsTrim (blocks.get ⟨k, hk⟩).2) := by
  intro blocks
  induction blocks with
  | nil => intro i a h; simp [attachOf] at h
  | cons b rest ih =>
    intro i a h
    obtain ⟨full, inner⟩ := b
    simp only [attachOf] at h
    cases hr : render i (jsTrim inner) with
    | some png =>
      rw [hr] at h
      rcases List.mem_cons.mp h with rfl | h'
      · exact ⟨0, by simp, by simpa using hr, rfl⟩
      · rcases ih (i + 1) a h' with ⟨k, hk, hrk, hfk⟩
        refine ⟨k + 1, by simpa using hk, ?_, ?_⟩
        · rw [show i + (k + 1) = i + 1 + k from by omega]
          simpa using hrk
        · simpa using hfk
    | none =>
      rw [hr] at h
      rcases ih (i + 1) a h with ⟨k, hk, hrk, hfk⟩
      refine ⟨k + 1, by simpa using hk, ?_, ?_⟩
      · rw [show i + (k + 1) = i + 1 + k from by omega]
        simpa using hrk
      · simpa using hfk

theorem attachOf_filenames_sublist (render : Nat → List Char → Option (List Nat)) :
    ∀ (blocks : List (List Char × List Char)) (i : Nat),
    ((attachOf render i blocks).map Attachment.filename).Sublist
      (blocks.map (fun b => generateFilename (jsTrim b.2))) := by
  intro blocks
  induction blocks with
  | nil => intro i; simp [attachOf]
  | cons b rest ih =>
    intro i
    obtain ⟨full, inner⟩ := b
    simp only [attachOf, List.map_cons]
    cases render i (jsTrim inner) with
    | some png =>
      simp only [List.map_cons]
      exact List.Sublist.cons₂ _ (ih (i + 1))
    | none => exact List.Sublist.cons _ (ih (i + 1))

theorem finalSlots_length (render : Nat → List Char → Option (List Nat)) :
    ∀ (ps : List (List Char × List Char)) (i : Nat),
    (finalSlots render i ps).length = ps.length := by
  intro ps
  induction ps with
  | nil => intro i; rfl
  | cons q rest ih =>
    intro i
    obtain ⟨c, g⟩ := q
    simp only [finalSlots, List.length_cons, ih]

theorem finalSlots_get (render : Nat → List Char → Option (List Nat)) :
    ∀ (ps : List (List Char × List Char)) (i k : Nat) (hk : k < ps.length)
      (hk' : k < (finalSlots render i ps).length),
    (finalSlots render i ps).get ⟨k, hk'⟩ =
      (match render (i + k) (jsTrim (ps.get ⟨k, hk⟩).1) with
       | some _ =>
         (Slot.img (placeholderFor (generateFilename (jsTrim (ps.get ⟨k, hk⟩).1))),
          (ps.get ⟨k, hk⟩).2)
       | none => (Slot.fence (ps.get ⟨k, hk⟩).1, (ps.get ⟨k, hk⟩).2)) := by
  intro ps
  induction ps with
  | nil => intro i k hk; simp at hk
  | cons q rest ih =>
    intro i k hk hk'
    obtain ⟨c, g⟩ := q
    cases k with
    | zero => simp [finalSlots, List.get]
    | succ k' =>
      have hkr : k' < rest.length := by simpa using hk
      simp only [finalSlots, List.get]
      rw [ih (i + 1) k' hkr (by simpa [finalSlots_length] using hkr)]
      rw [show i + 1 + k' = i + (k' + 1) from by omega]

theorem assembleS_split (g0 : List Char) :
    ∀ (l : List (Slot × List Char)) (k : Nat) (hk : k < l.length),
    ∃ u v, assembleS g0 l = u ++ slotStr (l.get ⟨k, hk⟩).1 ++ v := by
  intro l
  induction l generalizing g0 with
  | nil => intro k hk; simp at hk
  | cons sg r ih =>
    intro k hk
    obtain ⟨sl, g⟩ := sg
    cases k with
    | zero =>
      refine ⟨g0, g ++ assembleTail r, ?_⟩
      simp [assembleS, assembleTail, List.get, List.append_assoc]
    | succ k' =>
      have hkr : k' < r.length := by simpa using hk
      rcases ih g k' hkr with ⟨u, v, huv⟩
      refine ⟨g0 ++ slotStr sl ++ u, v, ?_⟩
      simp only [assembleS, assembleTail, List.get]
      simp only [assembleS] at huv
      rw [show (g0 ++ slotStr sl ++ u) ++ slotStr (r.get ⟨k', hkr⟩).1 ++ v =
        g0 ++ (slotStr sl ++ (u ++ slotStr (r.get ⟨k', hkr⟩).1 ++ v)) from by
          simp [List.append_assoc]]
      rw [← huv]
      simp [List.append_assoc]

/-! ### Auxiliary facts for the claims -/

/-- The content-addressed attachment naming pattern of the specification:
`mermaid-` followed by exactly 12 lowercase hex digits followed by `.png`.
This definition follows the spec's words and is compared against the
code's behaviour (which only checks the prefix and the extension). -/
def specContentAddressedName (href : List Char) : Bool :=
  href.length = 24 && ("mermaid-").toList.isPrefixOf href &&
  (".png").toList.isSuffixOf href && ((href.drop 8).take 12).all isHexDigitCh

theorem md5Bytes_length (m : List Nat) : (md5Bytes m).length = 16 := by
  simp [md5Bytes, leBytes]

theorem md5hex_length (m : List Nat) : (md5hex m).length = 32 := by
  have h : ∀ bs : List Nat, ((bs.map byteHex).flatten).length = 2 * bs.length := by
    intro bs
    induction bs with
    | nil => rfl
    | cons b r ih => simp [byteHex, ih]; omega
  simp only [md5hex, h, md5Bytes_length]

theorem generateFilename_inj_digest {x y : List Char}
    (h : generateFilename x = generateFilename y) :
    (md5hex (utf8Bytes x)).take 12 = (md5hex (utf8Bytes y)).take 12 := by
  have hlx : ((md5hex (utf8Bytes x)).take 12).length = 12 := by
    simp [md5hex_length]
  have hly : ((md5hex (utf8Bytes y)).take 12).length = 12 := by
    simp [md5hex_length]
  have h2 : ("mermaid-").toList ++ ((md5hex (utf8Bytes x)).take 12 ++ (".png").toList) =
      ("mermaid-").toList ++ ((md5hex (utf8Bytes y)).take 12 ++ (".png").toList) := by
    simpa [generateFilename, List.append_assoc] using h
  have h3 : (md5hex (utf8Bytes x)).take 12 ++ (".png").toList =
      (md5hex (utf8Bytes y)).take 12 ++ (".png").toList := by
    have h3' := congrArg
      (fun z => z.drop ((("mermaid-").toList : List Char).length)) h2
    simpa [List.drop_left] using h3'
  have h4 := congrArg (fun z => z.take ((md5hex (utf8Bytes x)).take 12).length) h3
  simp only [List.take_left] at h4
  rw [show ((md5hex (utf8Bytes x)).take 12).length =
    ((md5hex (utf8Bytes y)).take 12).length from by rw [hlx, hly]] at h4
  rw [List.take_left] at h4
  exact h4

/-! ### Claim theorems -/

/-- C9: for every render oracle and every document in which the mermaid
regex finds no fenced mermaid block, `convertMarkdownToConfluence` hands
the translator exactly the input document and the attachment sequence is
empty. -/
theorem no_mermaid_blocks_identity
    (render : Nat → List Char → Option (List Nat)) (markdown : List Char)
    (h : scan markdown = []) :
    processMermaidBlocks render markdown = (markdown, []) := by
  rw [processMermaidBlocks_eq, h]
  rfl

theorem no_mermaid_blocks_identity_witness :
    scan (("# Hi\n\nplain text").toList) = [] ∧
    processMermaidBlocks (fun _ _ => none) (("# Hi\n\nplain text").toList) =
      ((("# Hi\n\nplain text").toList), []) :=
  ⟨by decide, no_mermaid_blocks_identity _ _ (by decide)⟩

/-- C2 (amended): the conversion emits one artifact per successfully
rendered block occurrence — duplicates included — and byte-identical
trimmed sources always receive the identical content-addressed filename;
in particular two duplicate blocks whose renders both succeed contribute
two artifact entries carrying the same filename, not one. -/
theorem mermaid_duplicate_artifacts
    (render : Nat → List Char → Option (List Nat)) (md : List Char) :
    (processMermaidBlocks render md).2 = attachOf render 0 (scan md) ∧
    (∀ full inner rest d0 d1,
      scan md = (full, inner) :: (full, inner) :: rest →
      render 0 (jsTrim inner) = some d0 →
      render 1 (jsTrim inner) = some d1 →
      (processMermaidBlocks render md).2.take 2 =
        [⟨generateFilename (jsTrim inner), d0⟩,
         ⟨generateFilename (jsTrim inner), d1⟩]) := by
  have h1 : (processMermaidBlocks render md).2 = attachOf render 0 (scan md) := by
    rw [processMermaidBlocks_eq]
    rw [processLoop_fst]
    simp
  refine ⟨h1, ?_⟩
  intro full inner rest d0 d1 hscan hr0 hr1
  rw [h1, hscan]
  simp [attachOf, hr0, hr1]

theorem mermaid_duplicate_artifacts_witness :
    scan (("```mermaid\nB```y```mermaid\nB```").toList) =
      [((("```mermaid\nB```").toList), ("B").toList),
       ((("```mermaid\nB```").toList), ("B").toList)] ∧
    (processMermaidBlocks (fun _ _ => some [3])
        (("```mermaid\nB```y```mermaid\nB```").toList)).2.take 2 =
      [⟨generateFilename (jsTrim (("B").toList)), [3]⟩,
       ⟨generateFilename (jsTrim (("B").toList)), [3]⟩] :=
  ⟨by decide,
   (mermaid_duplicate_artifacts (fun _ _ => some [3])
      (("```mermaid\nB```y```mermaid\nB```").toList)).2
      (("```mermaid\nB```").toList) (("B").toList) [] [3] [3]
      (by decide) (by decide) (by decide)⟩

/-- C2 (counterexample): a document with two mermaid blocks whose trimmed
sources are byte-identical, with both renders succeeding, yields TWO
artifacts with the shared filename — not exactly one — and the second
duplicate's span is NOT rewritten: the output still contains the original
fenced text after the rewritten first occurrence. -/
theorem mermaid_duplicate_artifacts_cex :
    ((processMermaidBlocks (fun _ _ => some [137])
        (("```mermaid\nA```x```mermaid\nA```").toList)).2.map
      Attachment.filename) =
      [("mermaid-7fc56270e7a7.png").toList, ("mermaid-7fc56270e7a7.png").toList] ∧
    (processMermaidBlocks (fun _ _ => some [137])
        (("```mermaid\nA```x```mermaid\nA```").toList)).1 =
      (("![mermaid-mermaid-7fc56270e7a7.png](mermaid-7fc56270e7a7.png)x```mermaid\nA```").toList) := by
  constructor
  · decide
  · decide

/-- C8: the artifact filename is exactly `mermaid-` + the first 12
lowercase hex characters of the MD5 digest of the (trimmed) source +
`.png`; identical sources give identical filenames; distinct truncated
digests give distinct filenames; and every successfully rendered block
contributes an artifact carrying its own filename. -/
theorem generateFilename_spec :
    (∀ content : List Char, generateFilename content =
      ("mermaid-").toList ++ (md5hex (utf8Bytes content)).take 12 ++
        (".png").toList) ∧
    (∀ content : List Char, ∀ ch ∈ (md5hex (utf8Bytes content)).take 12,
      isHexDigitCh ch = true) ∧
    (∀ c c' : List Char, jsTrim c = jsTrim c' →
      generateFilename (jsTrim c) = generateFilename (jsTrim c')) ∧
    (∀ c c' : List Char,
      (md5hex (utf8Bytes c)).take 12 ≠ (md5hex (utf8Bytes c')).take 12 →
      generateFilename c ≠ generateFilename c') ∧
    (∀ (render : Nat → List Char → Option (List Nat))
       (blocks : List (List Char × List Char)) (i k : Nat)
       (hk : k < blocks.length) (d : List Nat),
      render (i + k) (jsTrim (blocks.get ⟨k, hk⟩).2) = some d →
      (⟨generateFilename (jsTrim (blocks.get ⟨k, hk⟩).2), d⟩ : Attachment) ∈
        attachOf render i blocks) := by
  refine ⟨fun _ => rfl, ?_, ?_, ?_, ?_⟩
  · intro content ch hch
    exact (md5hex_ok ch (List.mem_of_mem_take hch)).2
  · intro c c' h
    rw [h]
  · intro c c' h hcon
    exact h (generateFilename_inj_digest hcon)
  · intro render blocks i k hk d hr
    exact attachOf_mem render blocks i k hk d hr

theorem generateFilename_spec_witness :
    generateFilename (("A").toList) =
      ("mermaid-").toList ++ (md5hex (utf8Bytes (("A").toList))).take 12 ++
        (".png").toList ∧
    (md5hex (utf8Bytes (("A").toList))).take 12 ≠
      (md5hex (utf8Bytes (("C").toList))).take 12 ∧
    generateFilename (("A").toList) ≠ generateFilename (("C").toList) ∧
    (⟨generateFilename (jsTrim (("A").toList)), [7]⟩ : Attachment) ∈
      attachOf (fun _ _ => some [7]) 0 [((("f").toList), ("A").toList)] :=
  ⟨generateFilename_spec.1 _, by decide,
   generateFilename_spec.2.2.2.1 _ _ (by decide),
   generateFilename_spec.2.2.2.2 (fun _ _ => some [7])
     [((("f").toList), ("A").toList)] 0 0 (by decide) [7] (by decide)⟩

/-- C1 (counterexample): a document that already contains an image
reference whose target matches the content-addressed pattern
`mermaid-<12 hex>.png`, but has no mermaid block. The conversion leaves
it untouched and emits no artifact, so the output markup contains a
pattern-matching image reference with no corresponding artifact in the
sequence — the claimed round trip fails. -/
theorem mermaid_roundtrip_cex :
    processMermaidBlocks (fun _ _ => none)
        (("![x](mermaid-000000000000.png)").toList) =
      ((("![x](mermaid-000000000000.png)").toList), []) ∧
    specContentAddressedName (("mermaid-000000000000.png").toList) = true ∧
    findSub (("](mermaid-000000000000.png)").toList)
        (("![x](mermaid-000000000000.png)").toList) = some 3 := by
  refine ⟨?_, by decide, by decide⟩
  decide

theorem pairwise_idx_eq {α : Type} (l : List α) (h : l.Pairwise (· ≠ ·))
    (j k : Nat) (hj : j < l.length) (hk : k < l.length)
    (heq : l.get ⟨j, hj⟩ = l.get ⟨k, hk⟩) : j = k := by
  by_contra hne
  rcases Nat.lt_or_ge j k with hlt | hge
  · exact (List.pairwise_iff_get.mp h ⟨j, hj⟩ ⟨k, hk⟩ hlt) heq
  · have hlt : k < j := by omega
    exact (List.pairwise_iff_get.mp h ⟨k, hk⟩ ⟨j, hj⟩ hlt) heq.symm

theorem get_map' {α β : Type} (f : α → β) (l : List α) (j : Nat)
    (hj : j < l.length) (hj' : j < (l.map f).length) :
    (l.map f).get ⟨j, hj'⟩ = f (l.get ⟨j, hj⟩) := by
  simp [List.get_map]

theorem blocks_get (ps : List (List Char × List Char)) (j : Nat)
    (hj : j < ps.length)
    (hj' : j < (ps.map fun q => (fenceStr q.1, q.1)).length) :
    (ps.map fun q => (fenceStr q.1, q.1)).get ⟨j, hj'⟩ =
      (fenceStr (ps.get ⟨j, hj⟩).1, (ps.get ⟨j, hj⟩).1) := by
  simp [List.get_map]

/-- C3 (amended): on a cleanly delimited document (backtick-free sources
and gaps, no gap starting with `mermaid\n`) with pairwise-distinct block
sources, a block whose render call fails keeps its original fenced text
(its slot survives unchanged and the fenced text occurs verbatim in the
rewritten document), contributes no artifact (every artifact stems from a
successful call of some other block), and processing of the remaining
blocks continues; the conversion always returns a result. Without the
cleanliness hypotheses the preservation clause is false, see the
counterexample. -/
theorem mermaid_failure_preserved
    (render : Nat → List Char → Option (List Nat))
    (g0 : List Char) (ps : List (List Char × List Char)) (k : Nat)
    (hg0 : tickFree g0 = true)
    (hps : ∀ q ∈ ps, tickFree q.1 = true ∧ gapOK q.2)
    (hdist : (ps.map Prod.fst).Pairwise (· ≠ ·))
    (hk : k < ps.length)
    (hfail : render k (jsTrim (ps.get ⟨k, hk⟩).1) = none) :
    (processMermaidBlocks render
        (assembleS g0 (ps.map fun q => (Slot.fence q.1, q.2)))).1 =
      assembleS g0 (finalSlots render 0 ps) ∧
    (finalSlots render 0 ps).get ⟨k, by rw [finalSlots_length]; exact hk⟩ =
      (Slot.fence (ps.get ⟨k, hk⟩).1, (ps.get ⟨k, hk⟩).2) ∧
    (∃ u v, (processMermaidBlocks render
        (assembleS g0 (ps.map fun q => (Slot.fence q.1, q.2)))).1 =
      u ++ fenceStr (ps.get ⟨k, hk⟩).1 ++ v) ∧
    (∀ a ∈ (processMermaidBlocks render
        (assembleS g0 (ps.map fun q => (Slot.fence q.1, q.2)))).2,
      ∃ j, ∃ hj : j < ps.length, j ≠ k ∧
        render j (jsTrim (ps.get ⟨j, hj⟩).1) = some a.data ∧
        a.filename = generateFilename (jsTrim (ps.get ⟨j, hj⟩).1)) := by
  have hpipe := processMermaid_assembled render g0 ps hg0 hps hdist
  have hk' : k < (finalSlots render 0 ps).length := by
    rw [finalSlots_length]; exact hk
  have hslot : (finalSlots render 0 ps).get ⟨k, hk'⟩ =
      (Slot.fence (ps.get ⟨k, hk⟩).1, (ps.get ⟨k, hk⟩).2) := by
    rw [finalSlots_get render ps 0 k hk hk']
    rw [show 0 + k = k from by omega, hfail]
  refine ⟨by rw [hpipe], hslot, ?_, ?_⟩
  · rcases assembleS_split g0 (finalSlots render 0 ps) k hk' with ⟨u, v, huv⟩
    refine ⟨u, v, ?_⟩
    rw [hpipe]
    show assembleS g0 (finalSlots render 0 ps) = _
    rw [huv, hslot]
    rfl
  · intro a ha
    rw [hpipe] at ha
    rcases attachOf_source render _ 0 a ha with ⟨j, hj', hrj, hfj⟩
    have hj : j < ps.length := by simpa using hj'
    rw [blocks_get ps j hj hj'] at hrj hfj
    simp only at hrj hfj
    refine ⟨j, hj, ?_, by simpa using hrj, hfj⟩
    intro hjk
    subst hjk
    rw [show (0 : Nat) + j = j from by omega] at hrj
    rw [hrj] at hfail
    cases hfail

/-- C1 (amended): on a cleanly delimited document whose blocks have
pairwise-distinct truncated digests, the round trip holds at the block
level: the rewritten document is the original with each successful block
replaced by exactly one image reference to its artifact filename and each
failed block left as its original fence; the artifact filename sequence
has no duplicates; every artifact belongs to a successful block whose
slot carries an image reference to exactly that filename; a successful
block's filename occurs exactly once among the artifacts, and a failed
block's filename does not occur at all. Without these hypotheses the
claim is false, see the counterexample. -/
theorem mermaid_roundtrip_amended
    (render : Nat → List Char → Option (List Nat))
    (g0 : List Char) (ps : List (List Char × List Char))
    (hg0 : tickFree g0 = true)
    (hps : ∀ q ∈ ps, tickFree q.1 = true ∧ gapOK q.2)
    (hdig : (ps.map fun q =>
      (md5hex (utf8Bytes (jsTrim q.1))).take 12).Pairwise (· ≠ ·)) :
    (processMermaidBlocks render
        (assembleS g0 (ps.map fun q => (Slot.fence q.1, q.2)))) =
      (assembleS g0 (finalSlots render 0 ps),
       attachOf render 0 (ps.map fun q => (fenceStr q.1, q.1))) ∧
    ((attachOf render 0 (ps.map fun q => (fenceStr q.1, q.1))).map
      Attachment.filename).Nodup ∧
    (∀ a ∈ attachOf render 0 (ps.map fun q => (fenceStr q.1, q.1)),
      ∃ j, ∃ hj : j < ps.length,
        render j (jsTrim (ps.get ⟨j, hj⟩).1) = some a.data ∧
        a.filename = generateFilename (jsTrim (ps.get ⟨j, hj⟩).1) ∧
        (finalSlots render 0 ps).get ⟨j, by rw [finalSlots_length]; exact hj⟩ =
          (Slot.img (placeholderFor a.filename), (ps.get ⟨j, hj⟩).2)) ∧
    (∀ k, ∀ hk : k < ps.length, ∀ d,
      render k (jsTrim (ps.get ⟨k, hk⟩).1) = some d →
      generateFilename (jsTrim (ps.get ⟨k, hk⟩).1) ∈
        ((attachOf render 0 (ps.map fun q => (fenceStr q.1, q.1))).map
          Attachment.filename) ∧
      (finalSlots render 0 ps).get ⟨k, by rw [finalSlots_length]; exact hk⟩ =
        (Slot.img (placeholderFor
          (generateFilename (jsTrim (ps.get ⟨k, hk⟩).1))),
         (ps.get ⟨k, hk⟩).2)) ∧
    (∀ k, ∀ hk : k < ps.length,
      render k (jsTrim (ps.get ⟨k, hk⟩).1) = none →
      generateFilename (jsTrim (ps.get ⟨k, hk⟩).1) ∉
        ((attachOf render 0 (ps.map fun q => (fenceStr q.1, q.1))).map
          Attachment.filename) ∧
      (finalSlots render 0 ps).get ⟨k, by rw [finalSlots_length]; exact hk⟩ =
        (Slot.fence (ps.get ⟨k, hk⟩).1, (ps.get ⟨k, hk⟩).2)) := by
  have hdist : (ps.map Prod.fst).Pairwise (· ≠ ·) := by
    rw [List.pairwise_map] at hdig ⊢
    refine hdig.imp ?_
    intro a b hab hcon
    exact hab (by rw [hcon])
  have hpipe := processMermaid_assembled render g0 ps hg0 hps hdist
  have hfnmap : ((ps.map fun q => (fenceStr q.1, q.1)).map
      (fun b => generateFilename (jsTrim b.2))) =
      ps.map fun q => generateFilename (jsTrim q.1) := by
    simp [List.map_map]
  have hfnnodup : ((attachOf render 0
      (ps.map fun q => (fenceStr q.1, q.1))).map Attachment.filename).Nodup := by
    have hsub := attachOf_filenames_sublist render
      (ps.map fun q => (fenceStr q.1, q.1)) 0
    rw [hfnmap] at hsub
    have hpw : (ps.map fun q => generateFilename (jsTrim q.1)).Pairwise (· ≠ ·) := by
      rw [List.pairwise_map] at hdig ⊢
      refine hdig.imp ?_
      intro a b hab hcon
      exact hab (generateFilename_inj_digest hcon)
    exact List.Nodup.sublist hsub hpw
  have hsource : ∀ a ∈ attachOf render 0 (ps.map fun q => (fenceStr q.1, q.1)),
      ∃ j, ∃ hj : j < ps.length,
        render j (jsTrim (ps.get ⟨j, hj⟩).1) = some a.data ∧
        a.filename = generateFilename (jsTrim (ps.get ⟨j, hj⟩).1) := by
    intro a ha
    rcases attachOf_source render _ 0 a ha with ⟨j, hj', hrj, hfj⟩
    have hj : j < ps.length := by simpa using hj'
    rw [blocks_get ps j hj hj'] at hrj hfj
    simp only at hrj hfj
    exact ⟨j, hj, by simpa using hrj, hfj⟩
  refine ⟨hpipe, hfnnodup, ?_, ?_, ?_⟩
  · intro a ha
    rcases hsource a ha with ⟨j, hj, hrj, hfj⟩
    refine ⟨j, hj, hrj, hfj, ?_⟩
    rw [finalSlots_get render ps 0 j hj (by rw [finalSlots_length]; exact hj)]
    rw [show 0 + j = j from by omega, hrj, hfj]
  · intro k hk d hrk
    have hmem : (⟨generateFilename (jsTrim (ps.get ⟨k, hk⟩).1), d⟩ : Attachment) ∈
        attachOf render 0 (ps.map fun q => (fenceStr q.1, q.1)) := by
      have hk' : k < (ps.map fun q => (fenceStr q.1, q.1)).length := by
        simpa using hk
      have hm := attachOf_mem render (ps.map fun q => (fenceStr q.1, q.1)) 0 k hk' d
        (by rw [blocks_get ps k hk hk']
            simpa using hrk)
      rw [blocks_get ps k hk hk'] at hm
      simpa using hm
    refine ⟨List.mem_map_of_mem Attachment.filename hmem, ?_⟩
    rw [finalSlots_get render ps 0 k hk (by rw [finalSlots_length]; exact hk)]
    rw [show 0 + k = k from by omega, hrk]
  · intro k hk hrk
    refine ⟨?_, ?_⟩
    · intro hmem
      rcases List.mem_map.mp hmem with ⟨a, ha, hfa⟩
      rcases hsource a ha with ⟨j, hj, hrj, hfj⟩
      have hdigeq : (md5hex (utf8Bytes (jsTrim (ps.get ⟨j, hj⟩).1))).take 12 =
          (md5hex (utf8Bytes (jsTrim (ps.get ⟨k, hk⟩).1))).take 12 := by
        apply generateFilename_inj_digest
        rw [← hfj, hfa]
      have hjk : j = k :=
        pairwise_idx_eq _ hdig j k (by simpa using hj) (by simpa using hk)
          (by rw [get_map' _ ps j hj (by simpa using hj),
                get_map' _ ps k hk (by simpa using hk)]
              exact hdigeq)
      subst hjk
      rw [hrj] at hrk
      cases hrk
    · rw [finalSlots_get render ps 0 k hk (by rw [finalSlots_length]; exact hk)]
      rw [show 0 + k = k from by omega, hrk]

theorem mermaid_roundtrip_amended_witness :
    tickFree (("Intro\n").toList) = true ∧
    (([((("A").toList : List Char), ("\n").toList),
       ((("C").toList : List Char), ([] : List Char))]).map fun q =>
      (md5hex (utf8Bytes (jsTrim q.1))).take 12).Pairwise (· ≠ ·) ∧
    (processMermaidBlocks (fun i _ => if i = 0 then some [1] else some [2])
        (assembleS (("Intro\n").toList)
          (([((("A").toList : List Char), ("\n").toList),
             ((("C").toList : List Char), ([] : List Char))]).map fun q =>
            (Slot.fence q.1, q.2)))) =
      (assembleS (("Intro\n").toList)
        (finalSlots (fun i _ => if i = 0 then some [1] else some [2]) 0
          [((("A").toList : List Char), ("\n").toList),
           ((("C").toList : List Char), ([] : List Char))]),
       attachOf (fun i _ => if i = 0 then some [1] else some [2]) 0
        (([((("A").toList : List Char), ("\n").toList),
           ((("C").toList : List Char), ([] : List Char))]).map fun q =>
          (fenceStr q.1, q.1))) :=
  ⟨by decide, by decide,
   (mermaid_roundtrip_amended (fun i _ => if i = 0 then some [1] else some [2])
      (("Intro\n").toList)
      [((("A").toList : List Char), ("\n").toList),
       ((("C").toList : List Char), ([] : List Char))]
      (by decide) (by decide) (by decide)).1⟩

theorem mermaid_failure_preserved_witness :
    (∀ q ∈ [((("A").toList : List Char), ("\n").toList),
            ((("C").toList : List Char), ([] : List Char))],
      tickFree q.1 = true ∧ gapOK q.2) ∧
    (processMermaidBlocks (fun i _ => if i = 0 then none else some [2])
        (assembleS (("Intro\n").toList)
          (([((("A").toList : List Char), ("\n").toList),
             ((("C").toList : List Char), ([] : List Char))]).map fun q =>
            (Slot.fence q.1, q.2)))).1 =
      assembleS (("Intro\n").toList)
        (finalSlots (fun i _ => if i = 0 then none else some [2]) 0
          [((("A").toList : List Char), ("\n").toList),
           ((("C").toList : List Char), ([] : List Char))]) :=
  ⟨by decide,
   (mermaid_failure_preserved (fun i _ => if i = 0 then none else some [2])
      (("Intro\n").toList)
      [((("A").toList : List Char), ("\n").toList),
       ((("C").toList : List Char), ([] : List Char))] 0
      (by decide) (by decide) (by decide) (by decide) (by decide)).1⟩

/-- C3 (counterexample): a document where the closing fence of a FAILED
mermaid block overlaps the first occurrence of a later SUCCESSFUL block's
full text. The replacement consumes the failed block's closing fence, so
the failed block's original fenced text does not occur anywhere in the
output — refuting the claim that a failed block's fenced text is left
unchanged in the output. -/
theorem mermaid_failure_preserved_cex :
    scan (("```mermaid\nA```mermaid\nC``` ```mermaid\nC```").toList) =
      [((("```mermaid\nA```").toList), ("A").toList),
       ((("```mermaid\nC```").toList), ("C").toList)] ∧
    (processMermaidBlocks (fun i _ => if i = 0 then none else some [9])
        (("```mermaid\nA```mermaid\nC``` ```mermaid\nC```").toList)).1 =
      (("```mermaid\nA![mermaid-mermaid-0d61f8370cad.png](mermaid-0d61f8370cad.png) ```mermaid\nC```").toList) ∧
    findSub (("```mermaid\nA```").toList)
      ((processMermaidBlocks (fun i _ => if i = 0 then none else some [9])
        (("```mermaid\nA```mermaid\nC``` ```mermaid\nC```").toList)).1) = none := by
  refine ⟨by decide, ?_, ?_⟩
  · decide
  · decide

/-- C4 (amended): the serializer emits the attachment-image construct if
and only if the target ends in `.png` AND starts with `mermaid-` — the
code checks only the prefix and the extension, not the 12-hex digest.
Every filename generated by extraction passes this check; every other
target gets the external-image construct. -/
theorem rendererImage_amended (href : List Char) :
    (rendererImage href =
        ("<ac:image><ri:attachment ri:filename=\"").toList ++ href ++
          ("\"/></ac:image>").toList ↔
      ((".png").toList.isSuffixOf href &&
        ("mermaid-").toList.isPrefixOf href) = true) ∧
    (∀ content : List Char, rendererImage (generateFilename content) =
      ("<ac:image><ri:attachment ri:filename=\"").toList ++
        generateFilename content ++ ("\"/></ac:image>").toList) ∧
    (((".png").toList.isSuffixOf href &&
        ("mermaid-").toList.isPrefixOf href) = false →
      rendererImage href =
        ("<ac:image><ri:url ri:value=\"").toList ++ href ++
          ("\"/></ac:image>").toList) := by
  have hcond : ∀ h : List Char,
      ((".png").toList.isSuffixOf h && ("mermaid-").toList.isPrefixOf h) = true →
      rendererImage h =
        ("<ac:image><ri:attachment ri:filename=\"").toList ++ h ++
          ("\"/></ac:image>").toList := by
    intro h hc
    simp only [rendererImage]
    rw [if_pos hc]
  have hurl : ∀ h : List Char,
      ((".png").toList.isSuffixOf h && ("mermaid-").toList.isPrefixOf h) = false →
      rendererImage h =
        ("<ac:image><ri:url ri:value=\"").toList ++ h ++
          ("\"/></ac:image>").toList := by
    intro h hc
    simp only [rendererImage]
    rw [if_neg]
    intro hcon
    rw [hc] at hcon
    cases hcon
  have hdiff : ∀ h : List Char,
      ("<ac:image><ri:url ri:value=\"").toList ++ h ++
          ("\"/></ac:image>").toList ≠
      ("<ac:image><ri:attachment ri:filename=\"").toList ++ h ++
          ("\"/></ac:image>").toList := by
    intro h hcon
    have hlen := congrArg List.length hcon
    simp only [List.length_append] at hlen
    rw [show ((("<ac:image><ri:url ri:value=\"").toList : List Char)).length = 28
        from by decide,
      show ((("<ac:image><ri:attachment ri:filename=\"").toList : List Char)).length = 38
        from by decide] at hlen
    omega
  refine ⟨⟨?_, hcond href⟩, ?_, hurl href⟩
  · intro heq
    cases hc : ((".png").toList.isSuffixOf href &&
        ("mermaid-").toList.isPrefixOf href) with
    | true => rfl
    | false =>
      exfalso
      rw [hurl href hc] at heq
      exact hdiff href heq
  · intro content
    apply hcond
    rw [Bool.and_eq_true]
    constructor
    · rw [List.isSuffixOf_iff_suffix]
      exact ⟨("mermaid-").toList ++ (md5hex (utf8Bytes content)).take 12, by
        simp [generateFilename, List.append_assoc]⟩
    · exact prefix_ex.mpr ⟨(md5hex (utf8Bytes content)).take 12 ++ (".png").toList, by
        simp [generateFilename, List.append_assoc]⟩

theorem rendererImage_amended_witness :
    ((".png").toList.isSuffixOf (("http://e/i.jpg").toList) &&
      ("mermaid-").toList.isPrefixOf (("http://e/i.jpg").toList)) = false ∧
    rendererImage (("http://e/i.jpg").toList) =
      ("<ac:image><ri:url ri:value=\"").toList ++ (("http://e/i.jpg").toList) ++
        ("\"/></ac:image>").toList ∧
    rendererImage (generateFilename (("A").toList)) =
      ("<ac:image><ri:attachment ri:filename=\"").toList ++
        generateFilename (("A").toList) ++ ("\"/></ac:image>").toList :=
  ⟨by decide,
   (rendererImage_amended (("http://e/i.jpg").toList)).2.2 (by decide),
   (rendererImage_amended (("x").toList)).2.1 (("A").toList)⟩

/-- C4 (counterexample): the target `mermaid-x.png` does not match the
content-addressed pattern `mermaid-<12 hex>.png`, yet the serializer
emits the attachment-image construct for it — refuting the claimed
"if and only if". -/
theorem rendererImage_cex :
    rendererImage (("mermaid-x.png").toList) =
      ("<ac:image><ri:attachment ri:filename=\"").toList ++
        (("mermaid-x.png").toList) ++ ("\"/></ac:image>").toList ∧
    specContentAddressedName (("mermaid-x.png").toList) = false := by
  constructor
  · decide
  · decide

/-- C5: the post-serialization whitespace cleanup `/>\s+</g` also
collapses whitespace INSIDE the raw CDATA code body of a serialized code
block. For the code body `>\n<` the serialized macro contains
`CDATA[>\n<]`, and after cleanup the body has become `CDATA[><]` — the
code alters whitespace inside a raw code body, contradicting the claim
(and the spec's own requirement). -/
theorem cleanup_alters_cdata :
    (findSub (("<![CDATA[>\n<]]>").toList)
      (rendererCode ((">\n<").toList) none)).isSome = true ∧
    findSub (("<![CDATA[>\n<]]>").toList)
      (cleanWs (rendererCode ((">\n<").toList) none)) = none ∧
    (findSub (("<![CDATA[><]]>").toList)
      (cleanWs (rendererCode ((">\n<").toList) none))).isSome = true := by
  refine ⟨by decide, ?_, ?_⟩
  · decide
  · decide

/-- C7 (amended): front-matter stripping is NOT idempotent in general
(see the counterexample: a second front-matter block directly after the
first is stripped by the second application). It is idempotent exactly
when the once-stripped result no longer matches the front-matter pattern;
and when the body is a proper front-matter block (its first `\n---\n`
occurrence is the closing delimiter), one strip removes precisely the
block, leaving the remainder. -/
theorem removeFrontMatter_amended :
    (∀ s : List Char, (fmStripLen (removeFrontMatter s)).isSome = false →
      removeFrontMatter (removeFrontMatter s) = removeFrontMatter s) ∧
    (∀ body rest : List Char,
      findSub (("\n---\n").toList) (body ++ ((("\n---\n").toList) ++ rest)) =
        some body.length →
      removeFrontMatter
        ((("---\n").toList) ++ (body ++ ((("\n---\n").toList) ++ rest))) =
        rest) := by
  have haux : ∀ x : List Char, fmStripLen x = none → removeFrontMatter x = x := by
    intro x hx
    simp [removeFrontMatter, hx]
  constructor
  · intro s h
    apply haux
    cases heq : fmStripLen (removeFrontMatter s) with
    | none => rfl
    | some n => rw [heq] at h; simp at h
  · intro body rest hfind
    have hpre : ("---\n").toList.isPrefixOf
        ((("---\n").toList) ++ (body ++ ((("\n---\n").toList) ++ rest))) = true :=
      isPrefixOf_self_append
    have hdrop4 : ((("---\n").toList) ++
        (body ++ ((("\n---\n").toList) ++ rest))).drop 4 =
        body ++ ((("\n---\n").toList) ++ rest) := by
      rw [show (4 : Nat) = ((("---\n").toList : List Char)).length from by decide]
      exact List.drop_left _ _
    have hstrip : fmStripLen
        ((("---\n").toList) ++ (body ++ ((("\n---\n").toList) ++ rest))) =
        some (body.length + 9) := by
      simp only [fmStripLen, hpre, if_true, hdrop4, hfind, Option.map_some']
    simp only [removeFrontMatter, hstrip]
    rw [show (("---\n").toList) ++ (body ++ ((("\n---\n").toList) ++ rest)) =
        ((("---\n").toList) ++ body ++ (("\n---\n").toList)) ++ rest from by
      simp [List.append_assoc]]
    rw [show body.length + 9 =
        ((("---\n").toList) ++ body ++ (("\n---\n").toList)).length from by
      simp only [List.length_append]
      rw [show ((("---\n").toList : List Char)).length = 4 from by decide,
        show ((("\n---\n").toList : List Char)).length = 5 from by decide]
      omega]
    exact List.drop_left _ _

theorem removeFrontMatter_amended_witness :
    (fmStripLen (removeFrontMatter (("---\na\n---\nbody").toList))).isSome = false ∧
    removeFrontMatter (removeFrontMatter (("---\na\n---\nbody").toList)) =
      removeFrontMatter (("---\na\n---\nbody").toList) ∧
    findSub (("\n---\n").toList)
      ((("a: 1").toList) ++ ((("\n---\n").toList) ++ (("X").toList))) =
      some (("a: 1").toList).length ∧
    removeFrontMatter
      ((("---\n").toList) ++ ((("a: 1").toList) ++
        ((("\n---\n").toList) ++ (("X").toList)))) = ("X").toList :=
  ⟨by decide, removeFrontMatter_amended.1 _ (by decide), by decide,
   removeFrontMatter_amended.2 (("a: 1").toList) (("X").toList) (by decide)⟩

/-- C7 (counterexample): on a document with two consecutive front-matter
blocks, one strip leaves the second block in leading position and a
second strip removes it too — stripping twice differs from stripping
once. -/
theorem removeFrontMatter_cex :
    removeFrontMatter (("---\na\n---\n---\nb\n---\nrest").toList) =
      (("---\nb\n---\nrest").toList) ∧
    removeFrontMatter (removeFrontMatter
      (("---\na\n---\n---\nb\n---\nrest").toList)) = ("rest").toList ∧
    removeFrontMatter (removeFrontMatter
      (("---\na\n---\n---\nb\n---\nrest").toList)) ≠
      removeFrontMatter (("---\na\n---\n---\nb\n---\nrest").toList) := by
  refine ⟨by decide, by decide, by decide⟩

/-- Independent (spec-side) formulation of "the input contains a
`/spaces/<segment>` path component": some suffix starts with `/spaces/`
followed by at least one non-slash character. -/
def hasSpacesSegment : List Char → Bool
  | [] => false
  | s@(_ :: t) =>
    ((("/spaces/").toList.isPrefixOf s) &&
      (match (s.drop 8).head? with
       | some c => decide (c ≠ '/')
       | none => false)) || hasSpacesSegment t

theorem takeWhile_ne_nil_iff {p : Char → Bool} {l : List Char} :
    (l.takeWhile p ≠ []) ↔ (∃ c, l.head? = some c ∧ p c = true) := by
  cases l with
  | nil => simp [List.takeWhile]
  | cons c t =>
    cases hp : p c with
    | true => simp [List.takeWhile, hp]
    | false => simp [List.takeWhile, hp]

theorem spacesMatch_none_iff :
    ∀ s : List Char, spacesMatch s = none ↔ hasSpacesSegment s = false := by
  intro s
  induction s with
  | nil => simp [spacesMatch, hasSpacesSegment]
  | cons c t ih =>
    have hrange : hasSpacesSegment (c :: t) =
        ((("/spaces/").toList.isPrefixOf (c :: t)) &&
          (match ((c :: t).drop 8).head? with
           | some c' => decide (c' ≠ '/')
           | none => false) ||
         hasSpacesSegment t) := rfl
    by_cases hpre : ("/spaces/").toList.isPrefixOf (c :: t) = true
    · by_cases hseg : ((c :: t).drop 8).takeWhile (fun c => c ≠ '/') ≠ []
      · have hsome : spacesMatch (c :: t) =
            some (((c :: t).drop 8).takeWhile (fun c => c ≠ '/')) := by
          simp only [spacesMatch, hpre, if_true]
          rw [if_pos hseg]
        rcases takeWhile_ne_nil_iff.mp hseg with ⟨c', hc', hpc'⟩
        have hseg' : (match ((c :: t).drop 8).head? with
            | some c' => decide (c' ≠ '/')
            | none => false) = true := by
          rw [hc']
          exact hpc'
        rw [hsome, hrange, hpre, hseg']
        simp
      · have hnone : spacesMatch (c :: t) = spacesMatch t := by
          simp only [spacesMatch, hpre, if_true]
          rw [if_neg hseg]
        have hseg' : (match ((c :: t).drop 8).head? with
            | some c' => decide (c' ≠ '/')
            | none => false) = false := by
          cases hh : ((c :: t).drop 8).head? with
          | none => rfl
          | some c' =>
            simp only []
            cases hd : decide (c' ≠ '/') with
            | false => rfl
            | true =>
              exfalso
              apply hseg
              exact takeWhile_ne_nil_iff.mpr ⟨c', hh, hd⟩
        rw [hnone, hrange, hseg']
        simpa using ih
    · have hpre' : ("/spaces/").toList.isPrefixOf (c :: t) = false :=
        Bool.eq_false_iff.mpr hpre
      have hnone : spacesMatch (c :: t) = spacesMatch t := by
        simp only [spacesMatch]
        rw [if_neg (by rw [hpre']; exact Bool.false_ne_true)]
      rw [hnone, hrange, hpre']
      simpa using ih

/-- C10: `parseConfluenceUrl` is total on non-URL inputs — every input
not beginning with `http` is returned as the space key with no page id —
and it throws exactly when the input begins with `http` and contains no
`/spaces/<segment>` path component. -/
theorem parseConfluenceUrl_spec (input : List Char) :
    (("http").toList.isPrefixOf input = false →
      parseConfluenceUrl input = .ok ⟨input, none⟩) ∧
    (("http").toList.isPrefixOf input = true →
      ((∃ e, parseConfluenceUrl input = .error e) ↔
        hasSpacesSegment input = false)) := by
  constructor
  · intro h
    simp only [parseConfluenceUrl]
    rw [if_neg (by rw [h]; exact Bool.false_ne_true)]
  · intro h
    constructor
    · rintro ⟨e, he⟩
      rw [← spacesMatch_none_iff]
      cases hm : spacesMatch input with
      | none => rfl
      | some k =>
        exfalso
        simp only [parseConfluenceUrl] at he
        rw [if_pos h, hm] at he
        cases he
    · intro hseg
      have hm : spacesMatch input = none := (spacesMatch_none_iff input).mpr hseg
      refine ⟨("Could not extract space key from URL: ").toList ++ input, ?_⟩
      simp only [parseConfluenceUrl]
      rw [if_pos h, hm]

theorem parseConfluenceUrl_spec_witness :
    ("http").toList.isPrefixOf (("FOO").toList) = false ∧
    parseConfluenceUrl (("FOO").toList) = .ok ⟨("FOO").toList, none⟩ ∧
    ("http").toList.isPrefixOf (("https://e.atlassian.net/wiki/x").toList) = true ∧
    hasSpacesSegment (("https://e.atlassian.net/wiki/x").toList) = false ∧
    (∃ e, parseConfluenceUrl (("https://e.atlassian.net/wiki/x").toList) =
      .error e) :=
  ⟨by decide, (parseConfluenceUrl_spec (("FOO").toList)).1 (by decide),
   by decide, by decide,
   ((parseConfluenceUrl_spec (("https://e.atlassian.net/wiki/x").toList)).2
      (by decide)).mpr (by decide)⟩

theorem takeWhile_all_stop {p : Char → Bool} {b : Char}
    (hb : p b = false) :
    ∀ {a t : List Char}, (∀ c ∈ a, p c = true) →
    (a ++ b :: t).takeWhile p = a := by
  intro a
  induction a with
  | nil =>
    intro t _
    simp [List.takeWhile_cons, hb]
  | cons x a' ih =>
    intro t h
    simp only [List.cons_append, List.takeWhile_cons, h x (by simp), if_true]
    rw [ih (fun c hc => h c (by simp [hc]))]

theorem h1WsTry_succ_hit {v : List Char} {k : Nat} {c : Char}
    (hh : (v.drop (k + 1)).head? = some c) (hc : isLineTerm c = false) :
    h1WsTry v (k + 1) =
      some ((v.drop (k + 1)).takeWhile (fun c => !isLineTerm c)) := by
  simp only [h1WsTry, hh]
  rw [if_neg (by rw [hc]; exact Bool.false_ne_true)]

theorem isWs_of_isLineTerm {c : Char} (h : isLineTerm c = true) :
    isWs c = true := by
  simp only [isLineTerm, Bool.or_eq_true, decide_eq_true_eq] at h
  simp only [isWs, Bool.or_eq_true, decide_eq_true_eq]
  tauto

theorem isLineTerm_eq_false {c : Char} (h : isWs c = false) :
    isLineTerm c = false := by
  cases hl : isLineTerm c with
  | false => rfl
  | true =>
    rw [isWs_of_isLineTerm hl] at h
    cases h

theorem ne_sharp_of_isLineTerm {c : Char} (h : isLineTerm c = true) :
    c ≠ '#' := by
  intro hc
  rw [hc] at h
  exact absurd h (by decide)

theorem h1Try_ne (c : Char) (w : List Char) (hc : c ≠ '#') :
    h1Try (c :: w) = none := by
  simp only [h1Try]
  rw [if_neg hc]

theorem mem_of_mem_dropWhile {p : Char → Bool} {x : Char} :
    ∀ {l : List Char}, x ∈ l.dropWhile p → x ∈ l := by
  intro l
  induction l with
  | nil => intro h; simpa using h
  | cons y ys ih =>
    intro h
    rw [List.dropWhile_cons] at h
    by_cases hp : p y = true
    · rw [if_pos hp] at h
      exact List.mem_cons_of_mem _ (ih h)
    · rw [if_neg hp] at h
      exact h

theorem dropWhile_append_of_all {p : Char → Bool} {a : List Char}
    (h : ∀ x ∈ a, p x = true) (l : List Char) :
    (a ++ l).dropWhile p = l.dropWhile p := by
  induction a with
  | nil => rfl
  | cons x a' ih =>
    rw [List.cons_append, List.dropWhile_cons, if_pos (h x (by simp))]
    exact ih (fun y hy => h y (by simp [hy]))

theorem dropWhile_append_of_stop {p : Char → Bool} {c : Char} :
    ∀ {a a2 : List Char}, a.dropWhile p = c :: a2 →
    ∀ l : List Char, (a ++ l).dropWhile p = c :: (a2 ++ l) := by
  intro a
  induction a with
  | nil => intro a2 h; cases h
  | cons x xs ih =>
    intro a2 h l
    rw [List.dropWhile_cons] at h
    rw [List.cons_append, List.dropWhile_cons]
    by_cases hp : p x = true
    · rw [if_pos hp] at h
      rw [if_pos hp]
      exact ih h l
    · rw [if_neg hp] at h
      rw [if_neg hp]
      rw [List.cons_eq_cons] at h
      rw [h.1, h.2]

theorem h1LinesAux_congr : ∀ (f1 f2 : Nat) (u : List Char),
    u.length ≤ f1 → u.length ≤ f2 → h1LinesAux f1 u = h1LinesAux f2 u := by
  intro f1
  induction f1 with
  | zero =>
    intro f2 u h1 _
    have hu : u = [] := List.length_eq_zero.mp (Nat.le_zero.mp h1)
    subst hu
    cases f2 with
    | zero => rfl
    | succ m => simp [h1LinesAux, h1Try]
  | succ n ih =>
    intro f2 u h1 h2
    cases f2 with
    | zero =>
      have hu : u = [] := List.length_eq_zero.mp (Nat.le_zero.mp h2)
      subst hu
      simp [h1LinesAux, h1Try]
    | succ m =>
      simp only [h1LinesAux]
      cases htry : h1Try u with
      | some b => rfl
      | none =>
        cases hdw : u.dropWhile (fun x => !isLineTerm x) with
        | nil => rfl
        | cons c t =>
          have hl := dropWhile_length_le (fun x => !isLineTerm x) u
          rw [hdw] at hl
          simp only [List.length_cons] at hl
          exact ih m t (by omega) (by omega)

theorem h1ScanAux_step {u : List Char} {c : Char} {t : List Char}
    (h : h1Try u = none)
    (hd : u.dropWhile (fun x => !isLineTerm x) = c :: t) :
    h1ScanAux u = h1ScanAux t := by
  obtain ⟨m, hm⟩ : ∃ m, u.length = m + 1 := by
    cases u with
    | nil => cases hd
    | cons x xs => exact ⟨xs.length, rfl⟩
  have hl := dropWhile_length_le (fun x => !isLineTerm x) u
  rw [hd] at hl
  simp only [List.length_cons] at hl
  show h1LinesAux u.length u = h1ScanAux t
  rw [hm]
  simp only [h1LinesAux, h, hd]
  exact h1LinesAux_congr m t.length t (by omega) (Nat.le_refl _)

theorem titleScan_first :
    ∀ (w : List Char) (i : Nat) (g : List Char),
    findSub titleKey w = some i →
    titleTailMatch (w.drop (i + 6)) = some g →
    titleScan w = some g := by
  intro w
  induction w with
  | nil =>
    intro i g h
    simp [findSub,
      show (titleKey.isPrefixOf ([] : List Char)) = false from by decide] at h
  | cons c t ih =>
    intro i g h hm
    by_cases hp : titleKey.isPrefixOf (c :: t) = true
    · rw [findSub_of_isPrefixOf hp] at h
      have hi : i = 0 := by cases h; rfl
      subst hi
      simp only [titleScan, hp, if_true]
      rw [hm]
    · rw [findSub_cons_not hp] at h
      rcases Option.map_eq_some'.mp h with ⟨j, hj, rfl⟩
      simp only [titleScan]
      rw [if_neg hp]
      exact ih j g hj (by simpa using hm)

theorem h1Scan_start {u : List Char} {b : List Char} (h : h1Try u = some b) :
    h1ScanAux u = some b := by
  show h1LinesAux u.length u = some b
  cases hn : u.length with
  | zero =>
    have hu : u = [] := List.length_eq_zero.mp hn
    subst hu
    simp [h1Try] at h
  | succ n => simp [h1LinesAux, h]

theorem h1Scan_deep (t0 : Char) (v b : List Char)
    (ht0 : isLineTerm t0 = true) (htry : h1Try ('#' :: v) = some b) :
    ∀ (n : Nat) (a : List Char), a.length ≤ n → '#' ∉ a →
    h1ScanAux (a ++ t0 :: '#' :: v) = some b := by
  intro n
  induction n with
  | zero =>
    intro a ha _
    have haa : a = [] := List.length_eq_zero.mp (Nat.le_zero.mp ha)
    subst haa
    rw [List.nil_append]
    have h1 : h1Try (t0 :: '#' :: v) = none :=
      h1Try_ne t0 _ (ne_sharp_of_isLineTerm ht0)
    have hdw : (t0 :: '#' :: v).dropWhile (fun x => !isLineTerm x) =
        t0 :: '#' :: v := by
      rw [List.dropWhile_cons, if_neg (by simp [ht0])]
    rw [h1ScanAux_step h1 hdw]
    exact h1Scan_start htry
  | succ n ih =>
    intro a ha hsharp
    have h1 : h1Try (a ++ t0 :: '#' :: v) = none := by
      cases a with
      | nil => exact h1Try_ne t0 _ (ne_sharp_of_isLineTerm ht0)
      | cons x a' =>
        refine h1Try_ne x _ (fun hx => hsharp ?_)
        rw [← hx]
        exact List.mem_cons_self x a'
    cases hdw : a.dropWhile (fun x => !isLineTerm x) with
    | nil =>
      have hall : ∀ x ∈ a, (!isLineTerm x) = true :=
        List.dropWhile_eq_nil_iff.mp hdw
      have hdwu : (a ++ t0 :: '#' :: v).dropWhile (fun x => !isLineTerm x) =
          t0 :: '#' :: v := by
        rw [dropWhile_append_of_all hall, List.dropWhile_cons,
          if_neg (by simp [ht0])]
      rw [h1ScanAux_step h1 hdwu]
      exact h1Scan_start htry
    | cons c a2 =>
      have hdwu : (a ++ t0 :: '#' :: v).dropWhile (fun x => !isLineTerm x) =
          c :: (a2 ++ t0 :: '#' :: v) := dropWhile_append_of_stop hdw _
      have h2 : '#' ∉ a2 := by
        intro hx
        exact hsharp (mem_of_mem_dropWhile (hdw ▸ List.mem_cons_of_mem c hx))
      have hl := dropWhile_length_le (fun x => !isLineTerm x) a
      rw [hdw] at hl
      simp only [List.length_cons] at hl
      rw [h1ScanAux_step h1 hdwu]
      exact ih a2 (by omega) h2

theorem h1Try_simple (hd0 : Char) (hd' s' : List Char) (t1 : Char)
    (hws : isWs hd0 = false) (ht1 : isLineTerm t1 = true)
    (hnn : ∀ c ∈ hd0 :: hd', isLineTerm c = false) :
    h1Try ('#' :: ' ' :: ((hd0 :: hd') ++ t1 :: s')) = some (hd0 :: hd') := by
  have hW : ((' ' :: ((hd0 :: hd') ++ t1 :: s')).takeWhile isWs) = [' '] := by
    simp only [List.takeWhile_cons, show isWs ' ' = true from by decide,
      if_true, List.cons_append]
    rw [if_neg (by rw [hws]; exact Bool.false_ne_true)]
  have hterm : isLineTerm hd0 = false := isLineTerm_eq_false hws
  show h1WsTry (' ' :: ((hd0 :: hd') ++ t1 :: s'))
    ((' ' :: ((hd0 :: hd') ++ t1 :: s')).takeWhile isWs).length =
    some (hd0 :: hd')
  rw [hW]
  simp only [List.length_cons, List.length_nil]
  rw [@h1WsTry_succ_hit (' ' :: ((hd0 :: hd') ++ t1 :: s')) 0 hd0 rfl hterm]
  rw [show List.drop (0 + 1) (' ' :: ((hd0 :: hd') ++ t1 :: s')) =
    (hd0 :: hd') ++ t1 :: s' from rfl]
  rw [takeWhile_all_stop (by rw [ht1]; rfl)
    (fun c hc => by rw [hnn c hc]; rfl)]

/-- C6 (amended): `extractTitle` is a pure function of the document with
this precedence: (i) it returns the trimmed capture of the FIRST
`title:` occurrence anywhere after a document-initial `---\n` — not
restricted to the leading front-matter block and with no requirement
that the block even closes; (ii) when the document starts with `---\n`
but the title regex fails, it falls back to the first line start whose
line matches `#\s+(.+)$` (here: the first `#` of the document, sitting
right after a line terminator, followed by one space and a
terminator-free non-empty remainder) and returns the trimmed heading;
(iii) the same H1 rule applies when the document starts with the `#`
line itself; (iv) when the title regex attempt fails (or cannot start)
and no line matches the H1 pattern, the fallback is returned. Line
boundaries follow JavaScript regex semantics: `\r`, U+2028 and U+2029
terminate lines just as `\n` does. -/
theorem extractTitle_amended :
    (∀ (fb pre u g : List Char),
      findSub titleKey (pre ++ (titleKey ++ u)) = some pre.length →
      titleTailMatch u = some g →
      extractTitle ((("---\n").toList) ++ (pre ++ (titleKey ++ u))) fb =
        jsTrim g) ∧
    (∀ (fb a : List Char) (t0 hd0 : Char) (hd' s' : List Char) (t1 : Char),
      ("---\n").toList.isPrefixOf
        (a ++ t0 :: '#' :: ' ' :: ((hd0 :: hd') ++ t1 :: s')) = true →
      titleScan ((a ++ t0 :: '#' :: ' ' ::
        ((hd0 :: hd') ++ t1 :: s')).drop 4) = none →
      '#' ∉ a → isLineTerm t0 = true →
      isWs hd0 = false → isLineTerm t1 = true →
      (∀ c ∈ hd0 :: hd', isLineTerm c = false) →
      extractTitle (a ++ t0 :: '#' :: ' ' :: ((hd0 :: hd') ++ t1 :: s')) fb =
        jsTrim (hd0 :: hd')) ∧
    (∀ (fb : List Char) (hd0 : Char) (hd' s' : List Char) (t1 : Char),
      isWs hd0 = false → isLineTerm t1 = true →
      (∀ c ∈ hd0 :: hd', isLineTerm c = false) →
      extractTitle ('#' :: ' ' :: ((hd0 :: hd') ++ t1 :: s')) fb =
        jsTrim (hd0 :: hd')) ∧
    (∀ (fb s : List Char),
      (("---\n").toList.isPrefixOf s = true → titleScan (s.drop 4) = none) →
      h1ScanAux s = none →
      extractTitle s fb = fb) := by
  refine ⟨?_, ?_, ?_, ?_⟩
  · intro fb pre u g hfm htail
    have hpre : ("---\n").toList.isPrefixOf
        ((("---\n").toList) ++ (pre ++ (titleKey ++ u))) = true :=
      isPrefixOf_self_append
    have hdrop4 : ((("---\n").toList) ++ (pre ++ (titleKey ++ u))).drop 4 =
        pre ++ (titleKey ++ u) := by
      rw [show (4 : Nat) = ((("---\n").toList : List Char)).length from by decide]
      exact List.drop_left _ _
    have hdrop6 : (pre ++ (titleKey ++ u)).drop (pre.length + 6) = u := by
      rw [show pre ++ (titleKey ++ u) = (pre ++ titleKey) ++ u from by
        simp [List.append_assoc]]
      rw [show pre.length + 6 = (pre ++ titleKey).length from by
        simp [show (titleKey : List Char).length = 6 from by decide]]
      exact List.drop_left _ _
    have hscan : titleScan (pre ++ (titleKey ++ u)) = some g :=
      titleScan_first _ pre.length g hfm (by rw [hdrop6]; exact htail)
    simp only [extractTitle]
    rw [if_pos hpre, hdrop4, hscan]
  · intro fb a t0 hd0 hd' s' t1 hpre hts hsharp ht0 hws ht1 hnn
    have htry := h1Try_simple hd0 hd' s' t1 hws ht1 hnn
    have hscan := h1Scan_deep t0 (' ' :: ((hd0 :: hd') ++ t1 :: s'))
      (hd0 :: hd') ht0 htry a.length a (Nat.le_refl _) hsharp
    simp only [extractTitle]
    rw [if_pos hpre, hts, hscan]
  · intro fb hd0 hd' s' t1 hws ht1 hnn
    have hpre : ("---\n").toList.isPrefixOf
        ('#' :: ' ' :: ((hd0 :: hd') ++ t1 :: s')) = false := by
      simp [List.isPrefixOf, show ('-' == '#') = false from by decide]
    simp only [extractTitle]
    rw [if_neg (by rw [hpre]; exact Bool.false_ne_true)]
    rw [h1Scan_start (h1Try_simple hd0 hd' s' t1 hws ht1 hnn)]
  · intro fb s hts hh1
    simp only [extractTitle]
    cases hp : ("---\n").toList.isPrefixOf s with
    | false => rw [if_neg Bool.false_ne_true, hh1]
    | true => rw [if_pos rfl, hts hp, hh1]

theorem extractTitle_amended_witness :
    findSub titleKey ((("x: 1\n").toList) ++ (titleKey ++ ((" My Doc\n---\nr").toList))) =
      some (("x: 1\n").toList).length ∧
    titleTailMatch ((" My Doc\n---\nr").toList) = some (("My Doc").toList) ∧
    extractTitle ((("---\n").toList) ++ ((("x: 1\n").toList) ++
      (titleKey ++ ((" My Doc\n---\nr").toList)))) (("fb").toList) =
      jsTrim (("My Doc").toList) ∧
    titleScan (((("---\na: b\n---").toList) ++ '\n' :: '#' :: ' ' ::
      (('R' :: ("eal").toList) ++ '\n' :: ("rest").toList)).drop 4) = none ∧
    '#' ∉ (("---\na: b\n---").toList : List Char) ∧
    extractTitle ((("---\na: b\n---").toList) ++ '\n' :: '#' :: ' ' ::
      (('R' :: ("eal").toList) ++ '\n' :: ("rest").toList)) (("fb").toList) =
      jsTrim ('R' :: ("eal").toList) ∧
    isLineTerm '\r' = true ∧
    extractTitle ('#' :: ' ' :: (('A' :: ([] : List Char)) ++ '\r' ::
      ("B\nz").toList)) (("fb").toList) = jsTrim ('A' :: ([] : List Char)) ∧
    extractTitle (("plain text").toList) (("fb").toList) = ("fb").toList :=
  ⟨by decide, by decide,
   extractTitle_amended.1 (("fb").toList) (("x: 1\n").toList)
     ((" My Doc\n---\nr").toList) (("My Doc").toList) (by decide) (by decide),
   by decide, by decide,
   extractTitle_amended.2.1 (("fb").toList) (("---\na: b\n---").toList)
     '\n' 'R' (("eal").toList) (("rest").toList) '\n'
     (by decide) (by decide) (by decide) (by decide) (by decide) (by decide)
     (by decide),
   by decide,
   extractTitle_amended.2.2.1 (("fb").toList) 'A' ([] : List Char)
     (("B\nz").toList) '\r' (by decide) (by decide) (by decide),
   extractTitle_amended.2.2.2 (("fb").toList) (("plain text").toList)
     (by decide) (by decide)⟩

/-- C6 (counterexample): the document starts with a front-matter block
that contains NO `title:` field; the claimed behaviour is to fall back to
the first `#` heading (`Real`), but the lazy front-matter regex escapes
the block and captures `fake` from the body text `xtitle: fake`. -/
theorem extractTitle_cex :
    extractTitle (("---\na: b\n---\n# Real\nxtitle: fake\n").toList)
      (("fb").toList) = ("fake").toList ∧
    (("fake").toList : List Char) ≠ (("Real").toList : List Char) := by
  constructor
  · decide
  · decide

end MdConf
